import Mathlib

/-!
Verification development for the DuoPulse v4 pattern-generation core
(`scripts/pattern-viz-debug/src/pattern_viz/`).

Python floats are modelled with exact arithmetic: control parameters,
hash-derived uniforms and velocities as `ℚ`; quantities passing through
`math.log` / `math.exp` / `math.sqrt` (Gumbel scores, softmax blending)
as `ℝ`.  Bitmasks are `ℕ` (Python unbounded ints), with 32-bit wraparound
written out explicitly where the source masks with `0xFFFFFFFF`.
-/

/-! ## Step masks (types.py) -/

def DOWNBEAT_MASK : ℕ := 0x00010001

def QUARTER_NOTE_MASK : ℕ := 0x01010101

def BACKBEAT_MASK : ℕ := 0x01000100

def EIGHTH_NOTE_MASK : ℕ := 0x55555555

def SIXTEENTH_NOTE_MASK : ℕ := 0xFFFFFFFF

def OFFBEAT_MASK : ℕ := 0xAAAAAAAA

def SYNCOPATION_MASK : ℕ := 0x22222222

/-! ## Enums (types.py) -/

inductive Genre
  | TECHNO
  | TRIBAL
  | IDM
deriving DecidableEq, Repr

inductive EnergyZone
  | MINIMAL
  | GROOVE
  | BUILD
  | PEAK
deriving DecidableEq, Repr

inductive VoiceCoupling
  | INDEPENDENT
  | INTERLOCK
  | SHADOW
deriving DecidableEq, Repr

inductive BuildPhase
  | GROOVE
  | BUILD
  | FILL
deriving DecidableEq, Repr

inductive Voice
  | ANCHOR
  | SHIMMER
  | AUX
deriving DecidableEq, Repr

/-! ## Python `int()` on a nonnegative rational (truncation = floor). -/

/-- Python `int(q)` for the nonnegative rationals this code applies it to:
floor, computed as numerator divided by denominator. -/
def py_int (q : ℚ) : ℕ := q.num.toNat / q.den

/-! ## count_bits (gumbel_sampler.py), Brian Kernighan's algorithm.
The Python `while mask: mask &= mask - 1` loop is given the explicit
fuel `mask`, which bounds the number of iterations. -/

def count_bits_go : ℕ → ℕ → ℕ
  | 0, _ => 0
  | fuel + 1, mask => if mask = 0 then 0 else count_bits_go fuel (mask &&& (mask - 1)) + 1

def count_bits (mask : ℕ) : ℕ := count_bits_go mask mask

/-- Specification-level popcount: number of set bits below `k`. -/
def bit_card (k m : ℕ) : ℕ := ∑ i ∈ Finset.range k, if m.testBit i then 1 else 0

/-- Popcount on the 32-bit masks this codebase works with. -/
def popcount (m : ℕ) : ℕ := bit_card 32 m

/-- Binary digit sum, the bridge between Kernighan's loop and `bit_card`. -/
def digit_count (m : ℕ) : ℕ := (Nat.digits 2 m).sum

theorem bit_card_zero (k : ℕ) : bit_card k 0 = 0 := by
  simp [bit_card]

theorem digit_count_zero : digit_count 0 = 0 := by simp [digit_count]

theorem digit_count_two_mul (a : ℕ) : digit_count (2 * a) = digit_count a := by
  rcases Nat.eq_zero_or_pos a with h | h
  · subst h; rfl
  · unfold digit_count
    rw [Nat.digits_def' (b := 2) (by norm_num) (by omega)]
    simp [Nat.mul_div_cancel_left _ (by norm_num : 0 < 2), Nat.mul_mod_right]

theorem digit_count_two_mul_add_one (a : ℕ) :
    digit_count (2 * a + 1) = digit_count a + 1 := by
  unfold digit_count
  rw [Nat.digits_def' (b := 2) (by norm_num) (by omega)]
  have h1 : (2 * a + 1) % 2 = 1 := by omega
  have h2 : (2 * a + 1) / 2 = a := by omega
  simp only [List.sum_cons, h1, h2]
  omega

theorem land_two_mul_add_one (a : ℕ) : (2 * a + 1) &&& (2 * a) = 2 * a := by
  apply Nat.eq_of_testBit_eq
  intro i
  cases i with
  | zero =>
      simp [Nat.testBit_land, Nat.testBit_zero, Nat.mul_mod_right]
  | succ j =>
      have h1 : (2 * a + 1) / 2 = a := by omega
      have h2 : (2 * a) / 2 = a := by omega
      simp only [Nat.testBit_land]
      simp only [← Nat.testBit_div_two, h1, h2]
      exact Bool.and_self _

theorem land_two_mul_pred (a : ℕ) (ha : a ≠ 0) :
    (2 * a) &&& (2 * a - 1) = 2 * (a &&& (a - 1)) := by
  apply Nat.eq_of_testBit_eq
  intro i
  cases i with
  | zero =>
      simp [Nat.testBit_land, Nat.testBit_zero, Nat.mul_mod_right]
  | succ j =>
      have h1 : (2 * a) / 2 = a := by omega
      have h2 : (2 * a - 1) / 2 = a - 1 := by omega
      have h3 : (2 * (a &&& (a - 1))) / 2 = a &&& (a - 1) := by omega
      simp only [Nat.testBit_land]
      simp only [← Nat.testBit_div_two, h1, h2, h3]
      rw [Nat.testBit_land]

theorem digit_count_land_pred (m : ℕ) (hm : m ≠ 0) :
    digit_count (m &&& (m - 1)) + 1 = digit_count m := by
  induction m using Nat.strong_induction_on with
  | _ m ih =>
    rcases Nat.even_or_odd m with ⟨a, ha⟩ | ⟨a, ha⟩
    · have ha' : m = 2 * a := by omega
      subst ha'
      have ha0 : a ≠ 0 := by omega
      rw [land_two_mul_pred a ha0, digit_count_two_mul, digit_count_two_mul]
      exact ih a (by omega) ha0
    · subst ha
      have h1 : 2 * a + 1 - 1 = 2 * a := by omega
      rw [h1, land_two_mul_add_one, digit_count_two_mul, digit_count_two_mul_add_one]

theorem count_bits_go_eq (fuel m : ℕ) (h : m ≤ fuel) :
    count_bits_go fuel m = digit_count m := by
  induction fuel generalizing m with
  | zero =>
      have : m = 0 := by omega
      subst this
      rw [show count_bits_go 0 0 = 0 from rfl, digit_count_zero]
  | succ f ih =>
      by_cases hm : m = 0
      · subst hm
        rw [show count_bits_go (f + 1) 0 = 0 from rfl, digit_count_zero]
      · have hlt : m &&& (m - 1) ≤ f := by
          have := Nat.and_le_right (n := m) (m := m - 1)
          omega
        rw [count_bits_go, if_neg hm, ih _ hlt, digit_count_land_pred m hm]

theorem count_bits_eq_digit_count (m : ℕ) : count_bits m = digit_count m :=
  count_bits_go_eq m m le_rfl

theorem bit_card_succ_bottom (k m : ℕ) :
    bit_card (k + 1) m = (if m.testBit 0 then 1 else 0) + bit_card k (m / 2) := by
  unfold bit_card
  rw [Finset.sum_range_succ']
  have : ∀ i, (if m.testBit (i + 1) then 1 else 0) = if (m / 2).testBit i then 1 else 0 := by
    intro i
    rw [show i + 1 = Nat.succ i from rfl, Nat.testBit_succ]
  simp only [this]
  omega

theorem digit_count_eq_bit_card (k m : ℕ) (h : m < 2 ^ k) :
    digit_count m = bit_card k m := by
  induction k generalizing m with
  | zero =>
      have : m = 0 := by simpa using h
      subst this
      rw [digit_count_zero, bit_card_zero]
  | succ n ih =>
      rcases Nat.eq_zero_or_pos m with hm | hm
      · subst hm
        simp [digit_count_zero, bit_card]
      · rcases Nat.even_or_odd m with ⟨a, ha⟩ | ⟨a, ha⟩
        · have ha' : m = 2 * a := by omega
          subst ha'
          rw [digit_count_two_mul, bit_card_succ_bottom]
          have hbit : (2 * a).testBit 0 = false := by
            simp [Nat.testBit_zero, Nat.mul_mod_right]
          have hdiv : 2 * a / 2 = a := by omega
          rw [hbit, hdiv, if_neg (by simp)]
          have hlt : a < 2 ^ n := by
            have : 2 ^ (n + 1) = 2 * 2 ^ n := by ring
            omega
          rw [ih a hlt]
          omega
        · subst ha
          rw [digit_count_two_mul_add_one, bit_card_succ_bottom]
          have hbit : (2 * a + 1).testBit 0 = true := by
            simp [Nat.testBit_zero]
            omega
          have hdiv : (2 * a + 1) / 2 = a := by omega
          rw [hbit, hdiv, if_pos rfl]
          have hlt : a < 2 ^ n := by
            have : 2 ^ (n + 1) = 2 * 2 ^ n := by ring
            omega
          rw [ih a hlt]
          omega

theorem count_bits_eq_popcount (m : ℕ) (h : m < 2 ^ 32) : count_bits m = popcount m := by
  rw [count_bits_eq_digit_count, popcount, digit_count_eq_bit_card 32 m h]

theorem bit_card_le_of_subset (k : ℕ) {m n : ℕ}
    (h : ∀ i, m.testBit i = true → n.testBit i = true) : bit_card k m ≤ bit_card k n := by
  unfold bit_card
  apply Finset.sum_le_sum
  intro i _
  by_cases hm : m.testBit i
  · rw [if_pos hm, if_pos (h i hm)]
  · simp [hm]

theorem bit_card_lor_two_pow {m b k : ℕ} (hb : b < k) (hm : m.testBit b = false) :
    bit_card k (m ||| 2 ^ b) = bit_card k m + 1 := by
  unfold bit_card
  have hsplit : ∀ i, (if (m ||| 2 ^ b).testBit i then 1 else 0) =
      ((if m.testBit i then 1 else 0) + if i = b then 1 else 0 : ℕ) := by
    intro i
    by_cases hib : i = b
    · subst hib
      simp [Nat.testBit_lor, hm, Nat.testBit_two_pow_self]
    · have : (2 ^ b).testBit i = false := Nat.testBit_two_pow_of_ne (fun h => hib h.symm)
      simp [Nat.testBit_lor, this, hib]
  simp only [hsplit]
  rw [Finset.sum_add_distrib]
  congr 1
  rw [Finset.sum_ite_eq' (Finset.range k) b (fun _ => 1)]
  simp [Finset.mem_range.mpr hb]

theorem bit_card_eq_of_lt_pow {K k m : ℕ} (hk : k ≤ K) (h : m < 2 ^ k) :
    bit_card K m = bit_card k m := by
  have hK : m < 2 ^ K := lt_of_lt_of_le h (Nat.pow_le_pow_right (by norm_num) hk)
  rw [← digit_count_eq_bit_card K m hK, ← digit_count_eq_bit_card k m h]

/-! ## Gumbel Top-K sampler (gumbel_sampler.py) -/

/-- Small epsilon to avoid log(0); source float literal `1e-6`. -/
def EPSILON : ℚ := 1 / 1000000

/-- Minimum score (for initialization); source float literal `-1e9`. -/
noncomputable def MIN_SCORE : ℝ := -(1000000000 : ℝ)

/-- Deterministic hash from seed and step (32-bit wraparound arithmetic). -/
def hash_step (seed step : ℕ) : ℕ :=
  let h := seed &&& 0xFFFFFFFF
  let h := h ^^^ ((step * 0x9E3779B9) &&& 0xFFFFFFFF)
  let h := (h ^^^ (h >>> 16)) &&& 0xFFFFFFFF
  let h := (h * 0x85EBCA6B) &&& 0xFFFFFFFF
  let h := (h ^^^ (h >>> 13)) &&& 0xFFFFFFFF
  let h := (h * 0xC2B2AE35) &&& 0xFFFFFFFF
  let h := (h ^^^ (h >>> 16)) &&& 0xFFFFFFFF
  h

/-- Convert hash to a rational in (0, 1), clamped away from 0 and 1. -/
def hash_to_float (seed step : ℕ) : ℚ :=
  let h := hash_step seed step
  let result : ℚ := ((h >>> 8 : ℕ) : ℚ) / 16777216
  max EPSILON (min (1 - EPSILON) result)

/-- Convert uniform value to a standard Gumbel variate. -/
noncomputable def uniform_to_gumbel (uniform : ℚ) : ℝ :=
  let u := max EPSILON (min (1 - EPSILON) uniform)
  Neg.neg (Real.log (-(Real.log (u : ℝ))))

/-- Gumbel score for every step: `log(weight) + Gumbel(seed, step)`;
steps whose weight is below `EPSILON` get the `MIN_SCORE` sentinel. -/
noncomputable def compute_gumbel_scores (weights : List ℝ) (seed : ℕ)
    (pattern_length : ℕ) : List ℝ :=
  (List.range pattern_length).map fun step =>
    let weight := weights.getD step 0
    if weight < (EPSILON : ℝ) then MIN_SCORE
    else Real.log weight + uniform_to_gumbel (hash_to_float seed step)

/-- Check if candidate step satisfies the circular spacing constraint. -/
def check_spacing_valid (selected_mask candidate_step min_spacing pattern_length : ℕ) :
    Bool :=
  if min_spacing = 0 ∨ selected_mask = 0 then true
  else
    (List.range pattern_length).all fun step =>
      if ¬ selected_mask.testBit step then true
      else
        let dist := ((candidate_step : ℤ) - (step : ℤ)).natAbs
        let wrap_dist := pattern_length - dist
        decide (min_spacing ≤ min dist wrap_dist)

/-- Body of the `for step in range(min(pattern_length, 32))` loop of
`_find_best_step`, carrying `(best_score, best_step)`. -/
noncomputable def fbs_fold (scores : List ℝ) (eligibility_mask selected_mask
    pattern_length min_spacing : ℕ) (acc : ℝ × ℤ) (step : ℕ) : ℝ × ℤ :=
  if ¬ eligibility_mask.testBit step then acc
  else if selected_mask.testBit step then acc
  else if ¬ check_spacing_valid selected_mask step min_spacing pattern_length then acc
  else if acc.1 < scores.getD step MIN_SCORE then (scores.getD step MIN_SCORE, (step : ℤ))
  else acc

/-- Find the highest-scoring eligible step that satisfies spacing; `-1` if none. -/
noncomputable def find_best_step (scores : List ℝ) (eligibility_mask selected_mask
    pattern_length min_spacing : ℕ) : ℤ :=
  ((List.range (min pattern_length 32)).foldl
    (fbs_fold scores eligibility_mask selected_mask pattern_length min_spacing)
    (MIN_SCORE, -1)).2

/-- One `while selected_count < target_count` greedy pass of
`select_hits_gumbel`; the fuel is the number of hits still wanted,
state is `(selected_mask, selected_count)`. -/
noncomputable def select_loop (scores : List ℝ) (eligibility_mask pattern_length
    min_spacing : ℕ) : ℕ → ℕ × ℕ → ℕ × ℕ
  | 0, s => s
  | fuel + 1, s =>
      let best := find_best_step scores eligibility_mask s.1 pattern_length min_spacing
      if best < 0 then s
      else
        select_loop scores eligibility_mask pattern_length min_spacing fuel
          (s.1 ||| (1 <<< best.toNat), s.2 + 1)

/-- Select hits using the Gumbel Top-K algorithm with three-tier spacing
relaxation (full spacing, halved, none). -/
noncomputable def select_hits_gumbel (weights : List ℝ) (eligibility_mask
    target_count seed pattern_length min_spacing : ℕ) : ℕ :=
  let N := min pattern_length 32
  if target_count = 0 ∨ eligibility_mask = 0 then 0
  else
    let target := min target_count 16
    let scores := compute_gumbel_scores weights seed N
    let s1 := select_loop scores eligibility_mask N min_spacing target (0, 0)
    let s2 := if s1.2 < target ∧ 0 < min_spacing then
        select_loop scores eligibility_mask N (min_spacing / 2) (target - s1.2) s1
      else s1
    let s3 := if s2.2 < target then
        select_loop scores eligibility_mask N 0 (target - s2.2) s2
      else s2
    s3.1

/-- Minimum step spacing for each energy zone. -/
def get_min_spacing_for_zone (zone : EnergyZone) : ℕ :=
  match zone with
  | EnergyZone.MINIMAL => 4
  | EnergyZone.GROOVE => 2
  | EnergyZone.BUILD => 1
  | EnergyZone.PEAK => 0

/-! ## Characterization of `find_best_step` and the greedy selection loop -/

/-- A step passes all the filters of `_find_best_step` and has a score the
initial `MIN_SCORE` can be beaten by. -/
def fbs_ok (scores : List ℝ) (elig sel N sp b : ℕ) : Prop :=
  elig.testBit b = true ∧ sel.testBit b = false ∧
    check_spacing_valid sel b sp N = true ∧ MIN_SCORE < scores.getD b MIN_SCORE

theorem fbs_fold_spec (scores : List ℝ) (elig sel N sp : ℕ) (n : ℕ) :
    ((List.range n).foldl (fbs_fold scores elig sel N sp) (MIN_SCORE, -1) = (MIN_SCORE, -1) ∧
      ∀ b, b < n → ¬ fbs_ok scores elig sel N sp b) ∨
    (∃ b, b < n ∧
      (List.range n).foldl (fbs_fold scores elig sel N sp) (MIN_SCORE, -1) =
        (scores.getD b MIN_SCORE, (b : ℤ)) ∧ fbs_ok scores elig sel N sp b) := by
  induction n with
  | zero =>
      left
      refine ⟨rfl, ?_⟩
      intro b hb
      omega
  | succ n ih =>
      rw [List.range_succ, List.foldl_append, List.foldl_cons, List.foldl_nil]
      rcases ih with ⟨heq, hnone⟩ | ⟨b, hb, heq, hok⟩
      · rw [heq]
        by_cases h1 : elig.testBit n
        · by_cases h2 : sel.testBit n
          · left
            refine ⟨by simp [fbs_fold, h2], ?_⟩
            intro c hc
            rcases Nat.lt_succ_iff_lt_or_eq.mp hc with hlt | hceq
            · exact hnone c hlt
            · subst hceq
              intro hok
              exact absurd hok.2.1 (by simpa using h2)
          · by_cases h3 : check_spacing_valid sel n sp N
            · by_cases h4 : MIN_SCORE < scores.getD n MIN_SCORE
              · right
                refine ⟨n, by omega, ?_, h1, by simpa using h2, h3, h4⟩
                simp [fbs_fold, h1, h2, h3, h4, -List.getD_eq_getElem?_getD]
              · left
                refine ⟨by simp [fbs_fold, h1, h2, h3, h4, -List.getD_eq_getElem?_getD], ?_⟩
                intro c hc
                rcases Nat.lt_succ_iff_lt_or_eq.mp hc with hlt | hceq
                · exact hnone c hlt
                · subst hceq
                  intro hok
                  exact h4 hok.2.2.2
            · left
              refine ⟨by simp [fbs_fold, h1, h2, h3], ?_⟩
              intro c hc
              rcases Nat.lt_succ_iff_lt_or_eq.mp hc with hlt | hceq
              · exact hnone c hlt
              · subst hceq
                intro hok
                exact h3 (by simp [hok.2.2.1])
        · left
          refine ⟨by simp [fbs_fold, h1], ?_⟩
          intro c hc
          rcases Nat.lt_succ_iff_lt_or_eq.mp hc with hlt | hceq
          · exact hnone c hlt
          · subst hceq
            intro hok
            exact h1 (by simp [hok.1])
      · rw [heq]
        by_cases h1 : elig.testBit n
        · by_cases h2 : sel.testBit n
          · right
            exact ⟨b, by omega, by simp [fbs_fold, h2], hok⟩
          · by_cases h3 : check_spacing_valid sel n sp N
            · by_cases h4 : scores.getD b MIN_SCORE < scores.getD n MIN_SCORE
              · right
                refine ⟨n, by omega, by simp [fbs_fold, h1, h2, h3, h4, -List.getD_eq_getElem?_getD], h1,
                  by simpa using h2, h3, lt_trans hok.2.2.2 h4⟩
              · right
                exact ⟨b, by omega, by simp [fbs_fold, h1, h2, h3, h4, -List.getD_eq_getElem?_getD], hok⟩
            · right
              exact ⟨b, by omega, by simp [fbs_fold, h1, h2, h3], hok⟩
        · right
          exact ⟨b, by omega, by simp [fbs_fold, h1], hok⟩

theorem find_best_step_eq_neg_one {scores : List ℝ} {elig sel N sp : ℕ}
    (h : find_best_step scores elig sel N sp = -1) :
    ∀ b, b < min N 32 → ¬ fbs_ok scores elig sel N sp b := by
  rcases fbs_fold_spec scores elig sel N sp (min N 32) with ⟨_, hnone⟩ | ⟨b, _, heq, hok⟩
  · exact hnone
  · exfalso
    unfold find_best_step at h
    rw [heq] at h
    simp at h

theorem find_best_step_nonneg {scores : List ℝ} {elig sel N sp : ℕ}
    (h : 0 ≤ find_best_step scores elig sel N sp) :
    (find_best_step scores elig sel N sp).toNat < min N 32 ∧
      fbs_ok scores elig sel N sp (find_best_step scores elig sel N sp).toNat := by
  rcases fbs_fold_spec scores elig sel N sp (min N 32) with ⟨heq, _⟩ | ⟨b, hb, heq, hok⟩
  · exfalso
    unfold find_best_step at h
    rw [heq] at h
    simp at h
  · unfold find_best_step
    rw [heq]
    refine ⟨by simpa using hb, by simpa using hok⟩

theorem find_best_step_lt_zero_eq {scores : List ℝ} {elig sel N sp : ℕ}
    (h : find_best_step scores elig sel N sp < 0) :
    find_best_step scores elig sel N sp = -1 := by
  rcases fbs_fold_spec scores elig sel N sp (min N 32) with ⟨heq, _⟩ | ⟨b, _, heq, _⟩
  · unfold find_best_step
    rw [heq]
  · exfalso
    unfold find_best_step at h
    rw [heq] at h
    have hb0 : ((scores.getD b MIN_SCORE, (b : ℤ)).2) = (b : ℤ) := rfl
    rw [hb0] at h
    omega

/-- Number of still-selectable steps: eligible, inside the window, not selected. -/
def avail (elig N sel : ℕ) : ℕ :=
  ((Finset.range (min N 32)).filter
    (fun b => elig.testBit b = true ∧ sel.testBit b = false)).card

theorem avail_sel_zero (elig N : ℕ) : avail elig N 0 = bit_card (min N 32) elig := by
  unfold avail bit_card
  rw [Finset.card_filter]
  apply Finset.sum_congr rfl
  intro i _
  simp [Nat.zero_testBit]

theorem avail_pos_exists {elig N sel : ℕ} (h : 0 < avail elig N sel) :
    ∃ b, b < min N 32 ∧ elig.testBit b = true ∧ sel.testBit b = false := by
  unfold avail at h
  rw [Finset.card_pos] at h
  obtain ⟨b, hb⟩ := h
  rw [Finset.mem_filter, Finset.mem_range] at hb
  exact ⟨b, hb.1, hb.2.1, hb.2.2⟩

theorem testBit_lor_one_shiftLeft (sel b i : ℕ) :
    (sel ||| 1 <<< b).testBit i = (sel.testBit i || decide (b = i)) := by
  rw [Nat.one_shiftLeft, Nat.testBit_lor, Nat.testBit_two_pow]

theorem avail_lor {elig N sel b : ℕ} (hb : b < min N 32) (helig : elig.testBit b = true)
    (hsel : sel.testBit b = false) :
    avail elig N (sel ||| 1 <<< b) = avail elig N sel - 1 ∧ 0 < avail elig N sel := by
  have hmem : b ∈ (Finset.range (min N 32)).filter
      (fun c => elig.testBit c = true ∧ sel.testBit c = false) := by
    rw [Finset.mem_filter, Finset.mem_range]
    exact ⟨hb, helig, hsel⟩
  have hset : (Finset.range (min N 32)).filter
      (fun c => elig.testBit c = true ∧ (sel ||| 1 <<< b).testBit c = false) =
      ((Finset.range (min N 32)).filter
        (fun c => elig.testBit c = true ∧ sel.testBit c = false)).erase b := by
    ext c
    simp only [Finset.mem_erase, Finset.mem_filter, Finset.mem_range,
      testBit_lor_one_shiftLeft, Bool.or_eq_false_iff, decide_eq_false_iff_not]
    constructor
    · rintro ⟨hc, hce, hcs, hcb⟩
      exact ⟨fun h => hcb h.symm, hc, hce, hcs⟩
    · rintro ⟨hne, hc, hce, hcs⟩
      exact ⟨hc, hce, hcs, fun h => hne h.symm⟩
  constructor
  · unfold avail
    rw [hset, Finset.card_erase_of_mem hmem]
  · unfold avail
    exact Finset.card_pos.mpr ⟨b, hmem⟩

theorem select_loop_succ (scores : List ℝ) (elig N sp fuel sel cnt : ℕ) :
    select_loop scores elig N sp (fuel + 1) (sel, cnt) =
      if find_best_step scores elig sel N sp < 0 then (sel, cnt)
      else select_loop scores elig N sp fuel
        (sel ||| 1 <<< (find_best_step scores elig sel N sp).toNat, cnt + 1) := rfl

theorem select_loop_main (scores : List ℝ) (elig N sp : ℕ)
    (Hsp : ∀ sel, (∀ i, sel.testBit i = true → elig.testBit i = true ∧ i < min N 32) →
      ∀ b, b < min N 32 → elig.testBit b = true → sel.testBit b = false →
        check_spacing_valid sel b sp N = true)
    (H2 : ∀ b, b < min N 32 → elig.testBit b = true →
      MIN_SCORE < scores.getD b MIN_SCORE) :
    ∀ fuel sel cnt,
      (∀ i, sel.testBit i = true → elig.testBit i = true ∧ i < min N 32) →
      (select_loop scores elig N sp fuel (sel, cnt)).2 = cnt + min fuel (avail elig N sel) ∧
      (∀ i, (select_loop scores elig N sp fuel (sel, cnt)).1.testBit i = true →
        elig.testBit i = true ∧ i < min N 32) ∧
      bit_card 32 (select_loop scores elig N sp fuel (sel, cnt)).1 =
        bit_card 32 sel + min fuel (avail elig N sel) ∧
      (avail elig N sel ≤ fuel → ∀ i,
        (select_loop scores elig N sp fuel (sel, cnt)).1.testBit i =
          (decide (i < min N 32) && elig.testBit i)) := by
  intro fuel
  induction fuel with
  | zero =>
      intro sel cnt Hsel
      refine ⟨by simp [select_loop], Hsel, by simp [select_loop], ?_⟩
      intro havail i
      have havail0 : avail elig N sel = 0 := by omega
      show (sel.testBit i) = _
      cases hsb : sel.testBit i with
      | true =>
          obtain ⟨he, hw⟩ := Hsel i hsb
          simp [he, hw]
      | false =>
          by_cases hw : i < min N 32
          · by_cases he : elig.testBit i = true
            · exfalso
              have : 0 < avail elig N sel :=
                Finset.card_pos.mpr ⟨i, by
                  rw [Finset.mem_filter, Finset.mem_range]
                  exact ⟨hw, he, hsb⟩⟩
              omega
            · simp [Bool.eq_false_iff.mpr he]
          · simp [hw]
  | succ fuel ih =>
      intro sel cnt Hsel
      rw [select_loop_succ]
      by_cases hbest : find_best_step scores elig sel N sp < 0
      · rw [if_pos hbest]
        have hneg := find_best_step_lt_zero_eq hbest
        have hnone := find_best_step_eq_neg_one hneg
        have havail0 : avail elig N sel = 0 := by
          by_contra hpos
          obtain ⟨b, hb, he, hs⟩ := avail_pos_exists (Nat.pos_of_ne_zero hpos)
          exact hnone b hb ⟨he, hs, Hsp sel Hsel b hb he hs, H2 b hb he⟩
        rw [havail0]
        refine ⟨by simp, Hsel, by simp, ?_⟩
        intro _ i
        show (sel.testBit i) = _
        cases hsb : sel.testBit i with
        | true =>
            obtain ⟨he, hw⟩ := Hsel i hsb
            simp [he, hw]
        | false =>
            by_cases hw : i < min N 32
            · by_cases he : elig.testBit i = true
              · exfalso
                have : 0 < avail elig N sel :=
                  Finset.card_pos.mpr ⟨i, by
                    rw [Finset.mem_filter, Finset.mem_range]
                    exact ⟨hw, he, hsb⟩⟩
                omega
              · simp [Bool.eq_false_iff.mpr he]
            · simp [hw]
      · rw [if_neg hbest]
        push_neg at hbest
        obtain ⟨hblt, hbe, hbs, _, _⟩ := find_best_step_nonneg hbest
        set b := (find_best_step scores elig sel N sp).toNat with hbdef
        obtain ⟨havail_eq, havail_pos⟩ := avail_lor hblt hbe hbs
        have Hsel' : ∀ i, (sel ||| 1 <<< b).testBit i = true →
            elig.testBit i = true ∧ i < min N 32 := by
          intro i hi
          rw [testBit_lor_one_shiftLeft] at hi
          rcases Bool.or_eq_true_iff.mp hi with hi | hi
          · exact Hsel i hi
          · have : b = i := by simpa using hi
            subst this
            exact ⟨hbe, hblt⟩
        obtain ⟨ih1, ih2, ih3, ih4⟩ := ih (sel ||| 1 <<< b) (cnt + 1) Hsel'
        have hb32 : b < 32 := by omega
        have hcard : bit_card 32 (sel ||| 1 <<< b) = bit_card 32 sel + 1 := by
          rw [Nat.one_shiftLeft]
          exact bit_card_lor_two_pow hb32 hbs
        refine ⟨?_, ih2, ?_, ?_⟩
        · rw [ih1, havail_eq]
          omega
        · rw [ih3, hcard, havail_eq]
          omega
        · intro hle
          exact ih4 (by omega)

theorem select_loop_subset (scores : List ℝ) (elig N sp : ℕ) :
    ∀ fuel sel cnt i,
      (select_loop scores elig N sp fuel (sel, cnt)).1.testBit i = true →
      sel.testBit i = true ∨ (elig.testBit i = true ∧ i < min N 32) := by
  intro fuel
  induction fuel with
  | zero =>
      intro sel cnt i hi
      exact Or.inl hi
  | succ fuel ih =>
      intro sel cnt i hi
      rw [select_loop_succ] at hi
      by_cases hbest : find_best_step scores elig sel N sp < 0
      · rw [if_pos hbest] at hi
        exact Or.inl hi
      · rw [if_neg hbest] at hi
        push_neg at hbest
        obtain ⟨hblt, hbe, _, _, _⟩ := find_best_step_nonneg hbest
        rcases ih _ _ i hi with hsel | helig
        · rw [testBit_lor_one_shiftLeft] at hsel
          rcases Bool.or_eq_true_iff.mp hsel with hs | hs
          · exact Or.inl hs
          · have : (find_best_step scores elig sel N sp).toNat = i := by simpa using hs
            subst this
            exact Or.inr ⟨hbe, hblt⟩
        · exact Or.inr helig

theorem select_loop_lt_two_pow (scores : List ℝ) (elig N sp : ℕ) :
    ∀ fuel sel cnt, sel < 2 ^ 32 →
      (select_loop scores elig N sp fuel (sel, cnt)).1 < 2 ^ 32 := by
  intro fuel
  induction fuel with
  | zero =>
      intro sel cnt h
      exact h
  | succ fuel ih =>
      intro sel cnt h
      rw [select_loop_succ]
      by_cases hbest : find_best_step scores elig sel N sp < 0
      · rw [if_pos hbest]
        exact h
      · rw [if_neg hbest]
        push_neg at hbest
        obtain ⟨hblt, _, _, _, _⟩ := find_best_step_nonneg hbest
        apply ih
        apply Nat.or_lt_two_pow h
        rw [Nat.one_shiftLeft]
        exact Nat.pow_lt_pow_right (by norm_num) (by omega)

theorem select_loop_avail_zero (scores : List ℝ) (elig N sp : ℕ) :
    ∀ fuel sel cnt, avail elig N sel = 0 →
      select_loop scores elig N sp fuel (sel, cnt) = (sel, cnt) := by
  intro fuel
  induction fuel with
  | zero =>
      intro sel cnt _
      rfl
  | succ fuel _ =>
      intro sel cnt h
      rw [select_loop_succ]
      by_cases hbest : find_best_step scores elig sel N sp < 0
      · rw [if_pos hbest]
      · exfalso
        push_neg at hbest
        obtain ⟨hblt, hbe, hbs, _, _⟩ := find_best_step_nonneg hbest
        have : 0 < avail elig N sel := by
          apply Finset.card_pos.mpr
          refine ⟨(find_best_step scores elig sel N sp).toNat, ?_⟩
          rw [Finset.mem_filter, Finset.mem_range]
          exact ⟨hblt, hbe, hbs⟩
        omega

theorem epsilon_cast : ((EPSILON : ℚ) : ℝ) = 1 / 1000000 := by
  norm_num [EPSILON]

theorem uniform_to_gumbel_ge (u : ℚ) : -(1000000 : ℝ) ≤ uniform_to_gumbel u := by
  unfold uniform_to_gumbel
  set u' : ℚ := max EPSILON (min (1 - EPSILON) u) with hu'
  have h1 : EPSILON ≤ u' := le_max_left _ _
  have h2 : u' ≤ 1 - EPSILON := by
    rw [hu']
    apply max_le
    · rw [EPSILON]; norm_num
    · exact min_le_left _ _
  have h1R : (1 / 1000000 : ℝ) ≤ (u' : ℝ) := by
    rw [← epsilon_cast]
    exact_mod_cast h1
  have h2R : (u' : ℝ) ≤ 1 - 1 / 1000000 := by
    have := (Rat.cast_le (K := ℝ)).mpr h2
    rw [Rat.cast_sub, epsilon_cast] at this
    simpa using this
  have hpos : (0 : ℝ) < (u' : ℝ) := by linarith
  have hlt1 : (u' : ℝ) < 1 := by linarith
  have hlog_neg : Real.log (u' : ℝ) < 0 := Real.log_neg hpos hlt1
  have hlog_lb : Real.log (1 / 1000000 : ℝ) ≤ Real.log (u' : ℝ) :=
    Real.log_le_log (by norm_num) h1R
  have hlogE : Real.log (1 / 1000000 : ℝ) = -Real.log 1000000 := by
    rw [one_div, Real.log_inv]
  have hlog_big : Real.log (1000000 : ℝ) ≤ 999999 := by
    have := Real.log_le_sub_one_of_pos (x := (1000000 : ℝ)) (by norm_num)
    linarith
  have hnl_pos : 0 < -Real.log (u' : ℝ) := by linarith
  have hnl_ub : -Real.log (u' : ℝ) ≤ 1000000 := by
    rw [hlogE] at hlog_lb
    linarith
  have houter : Real.log (-Real.log (u' : ℝ)) ≤ Real.log 1000000 :=
    Real.log_le_log hnl_pos hnl_ub
  have : Real.log (-Real.log (u' : ℝ)) ≤ 999999 := le_trans houter hlog_big
  show -(1000000 : ℝ) ≤ -Real.log (-(Real.log (u' : ℝ)))
  linarith

theorem compute_gumbel_scores_getD (weights : List ℝ) (seed N b : ℕ) (hb : b < N) :
    (compute_gumbel_scores weights seed N).getD b MIN_SCORE =
      if weights.getD b 0 < (EPSILON : ℝ) then MIN_SCORE
      else Real.log (weights.getD b 0) + uniform_to_gumbel (hash_to_float seed b) := by
  unfold compute_gumbel_scores
  rw [List.getD_eq_getElem?_getD, List.getElem?_map, List.getElem?_range hb]
  rfl

theorem score_gt_min_of_weight (weights : List ℝ) (seed N b : ℕ) (hb : b < N)
    (hw : (EPSILON : ℝ) ≤ weights.getD b 0) :
    MIN_SCORE < (compute_gumbel_scores weights seed N).getD b MIN_SCORE := by
  rw [compute_gumbel_scores_getD weights seed N b hb, if_neg (not_lt.mpr hw)]
  have hwE : (1 / 1000000 : ℝ) ≤ weights.getD b 0 := by
    rw [← epsilon_cast]
    exact hw
  have h1 : Real.log (1 / 1000000 : ℝ) ≤ Real.log (weights.getD b 0) :=
    Real.log_le_log (by norm_num) hwE
  have h2 : -Real.log (1000000 : ℝ) ≤ Real.log (weights.getD b 0) := by
    rw [one_div, Real.log_inv] at h1
    exact h1
  have h3 : Real.log (1000000 : ℝ) ≤ 999999 := by
    have := Real.log_le_sub_one_of_pos (x := (1000000 : ℝ)) (by norm_num)
    linarith
  have h4 := uniform_to_gumbel_ge (hash_to_float seed b)
  unfold MIN_SCORE
  linarith

theorem select_hits_gumbel_subset (weights : List ℝ) (elig k seed N sp : ℕ) :
    ∀ i, (select_hits_gumbel weights elig k seed N sp).testBit i = true →
      elig.testBit i = true ∧ i < min N 32 := by
  intro i hi
  unfold select_hits_gumbel at hi
  by_cases h0 : k = 0 ∨ elig = 0
  · rw [if_pos h0] at hi
    rw [Nat.zero_testBit] at hi
    exact absurd hi (by simp)
  · rw [if_neg h0] at hi
    simp only [] at hi
    set N' := min N 32 with hN'
    set scores := compute_gumbel_scores weights seed N' with hscores
    set target := min k 16 with htarget
    set s1 := select_loop scores elig N' sp target (0, 0) with hs1
    set s2 := if s1.2 < target ∧ 0 < sp then
        select_loop scores elig N' (sp / 2) (target - s1.2) s1 else s1 with hs2
    have hmin : min N' 32 = N' := by omega
    have hsub1 : ∀ j, s1.1.testBit j = true → elig.testBit j = true ∧ j < N' := by
      intro j hj
      rcases select_loop_subset scores elig N' sp target 0 0 j hj with h | h
      · rw [Nat.zero_testBit] at h
        exact absurd h (by simp)
      · rw [hmin] at h
        exact h
    have hsub2 : ∀ j, s2.1.testBit j = true → elig.testBit j = true ∧ j < N' := by
      intro j hj
      rw [hs2] at hj
      by_cases hc : s1.2 < target ∧ 0 < sp
      · rw [if_pos hc] at hj
        obtain ⟨sa, sb⟩ := s1
        rcases select_loop_subset scores elig N' (sp / 2) (target - sb) sa sb j hj with h | h
        · exact hsub1 j h
        · rw [hmin] at h
          exact h
      · rw [if_neg hc] at hj
        exact hsub1 j hj
    by_cases hc : s2.2 < target
    · rw [if_pos hc] at hi
      obtain ⟨sa, sb⟩ := s2
      rcases select_loop_subset scores elig N' 0 (target - sb) sa sb i hi with h | h
      · exact hsub2 i h
      · rw [hmin] at h
        exact h
    · rw [if_neg hc] at hi
      exact hsub2 i hi

theorem lt_two_pow_of_high_bits_false {m n : ℕ}
    (h : ∀ i, n ≤ i → m.testBit i = false) : m < 2 ^ n := by
  have hm : m = m % 2 ^ n := by
    apply Nat.eq_of_testBit_eq
    intro i
    rw [Nat.testBit_mod_two_pow]
    by_cases hi : i < n
    · simp [hi]
    · simp [hi, h i (by omega)]
  rw [hm]
  exact Nat.mod_lt _ (by positivity)

theorem select_hits_gumbel_lt_two_pow (weights : List ℝ) (elig k seed N sp : ℕ) :
    select_hits_gumbel weights elig k seed N sp < 2 ^ 32 := by
  apply lt_two_pow_of_high_bits_false
  intro i hi32
  cases hbit : (select_hits_gumbel weights elig k seed N sp).testBit i with
  | false => rfl
  | true =>
      obtain ⟨_, hlt⟩ := select_hits_gumbel_subset weights elig k seed N sp i hbit
      omega

theorem check_spacing_valid_zero (sel b N : ℕ) : check_spacing_valid sel b 0 N = true := by
  unfold check_spacing_valid
  rw [if_pos (Or.inl rfl)]

theorem avail_eq_zero_of_fill {elig N sel : ℕ}
    (hfill : ∀ i, sel.testBit i = (decide (i < min N 32) && elig.testBit i)) :
    avail elig N sel = 0 := by
  unfold avail
  rw [Finset.card_eq_zero, Finset.filter_eq_empty_iff]
  intro b hb
  rw [Finset.mem_range] at hb
  rintro ⟨hbe, hbs⟩
  rw [hfill b, decide_eq_true hb, hbe] at hbs
  simp at hbs

theorem select_hits_gumbel_card (weights : List ℝ) (elig k seed N : ℕ)
    (Helig : elig < 2 ^ min N 32)
    (Hw : ∀ b, b < min N 32 → elig.testBit b = true → (EPSILON : ℝ) ≤ weights.getD b 0) :
    count_bits (select_hits_gumbel weights elig k seed N 0) =
      min k (min (count_bits elig) 16) := by
  have hN32 : min N 32 ≤ 32 := by omega
  have Helig32 : elig < 2 ^ 32 :=
    lt_of_lt_of_le Helig (Nat.pow_le_pow_right (by norm_num) hN32)
  have heligcnt : count_bits elig = bit_card 32 elig := count_bits_eq_popcount elig Helig32
  by_cases h0 : k = 0 ∨ elig = 0
  · unfold select_hits_gumbel
    rw [if_pos h0]
    rcases h0 with h0 | h0
    · subst h0
      rw [show count_bits 0 = 0 from rfl]
      omega
    · subst h0
      rw [show count_bits 0 = 0 from rfl] at heligcnt ⊢
      omega
  · have hres := select_hits_gumbel_lt_two_pow weights elig k seed N 0
    unfold select_hits_gumbel at hres ⊢
    rw [if_neg h0] at hres ⊢
    simp only [] at hres ⊢
    set N' := min N 32 with hN'
    set scores := compute_gumbel_scores weights seed N' with hscores
    set target := min k 16 with htarget
    have hmin : min N' 32 = N' := by omega
    have Hsp0 : ∀ sel, (∀ i, sel.testBit i = true → elig.testBit i = true ∧ i < min N' 32) →
        ∀ b, b < min N' 32 → elig.testBit b = true → sel.testBit b = false →
          check_spacing_valid sel b 0 N' = true := by
      intro sel _ b _ _ _
      exact check_spacing_valid_zero sel b N'
    have H2 : ∀ b, b < min N' 32 → elig.testBit b = true →
        MIN_SCORE < scores.getD b MIN_SCORE := by
      intro b hb he
      rw [hmin] at hb
      exact score_gt_min_of_weight weights seed N' b (by omega) (Hw b (by omega) he)
    have Hsel0 : ∀ i, (0 : ℕ).testBit i = true → elig.testBit i = true ∧ i < min N' 32 := by
      intro i hi
      rw [Nat.zero_testBit] at hi
      exact absurd hi (by simp)
    obtain ⟨h1cnt, h1sub, h1card, h1fill⟩ :=
      select_loop_main scores elig N' 0 Hsp0 H2 target 0 0 Hsel0
    set s1 := select_loop scores elig N' 0 target (0, 0) with hs1
    have havail0 : avail elig N' 0 = bit_card 32 elig := by
      rw [avail_sel_zero, hmin, ← bit_card_eq_of_lt_pow hN32 Helig]
    rw [bit_card_zero] at h1card
    rw [havail0] at h1cnt h1card h1fill
    rw [Nat.zero_add] at h1cnt h1card
    have hpass2 : (if s1.2 < target ∧ 0 < 0 then
        select_loop scores elig N' (0 / 2) (target - s1.2) s1 else s1) = s1 := by
      rw [if_neg (by simp)]
    rw [hpass2] at hres ⊢
    by_cases hc : s1.2 < target
    · rw [if_pos hc]
      have hfill : ∀ i, s1.1.testBit i = (decide (i < min N' 32) && elig.testBit i) := by
        apply h1fill
        omega
      have hav1 : avail elig N' s1.1 = 0 := avail_eq_zero_of_fill hfill
      have hloop3 : select_loop scores elig N' 0 (target - s1.2) (s1.1, s1.2) = (s1.1, s1.2) :=
        select_loop_avail_zero scores elig N' 0 (target - s1.2) s1.1 s1.2 hav1
      rw [show (s1.1, s1.2) = s1 from rfl] at hloop3
      rw [hloop3]
      rw [hloop3] at hres
      rw [if_pos hc] at hres
      rw [count_bits_eq_popcount _ hres, popcount, h1card, heligcnt]
      omega
    · rw [if_neg hc]
      rw [if_neg hc] at hres
      rw [count_bits_eq_popcount _ hres, popcount, h1card, heligcnt]
      omega

theorem select_hits_gumbel_exact (weights : List ℝ) (elig k seed N sp : ℕ)
    (Helig : elig < 2 ^ min N 32) (hk0 : ¬(k = 0 ∨ elig = 0))
    (Hw : ∀ b, b < min N 32 → elig.testBit b = true → (EPSILON : ℝ) ≤ weights.getD b 0)
    (Hsp : ∀ sel, (∀ i, sel.testBit i = true → elig.testBit i = true ∧ i < min N 32) →
      ∀ b, b < min N 32 → elig.testBit b = true → sel.testBit b = false →
        check_spacing_valid sel b sp (min N 32) = true)
    (Hbudget : bit_card 32 elig ≤ min k 16) :
    select_hits_gumbel weights elig k seed N sp = elig := by
  have hN32 : min N 32 ≤ 32 := by omega
  unfold select_hits_gumbel
  rw [if_neg hk0]
  simp only []
  set N' := min N 32 with hN'
  set scores := compute_gumbel_scores weights seed N' with hscores
  set target := min k 16 with htarget
  have hmin : min N' 32 = N' := by omega
  have Hsp' : ∀ sel, (∀ i, sel.testBit i = true → elig.testBit i = true ∧ i < min N' 32) →
      ∀ b, b < min N' 32 → elig.testBit b = true → sel.testBit b = false →
        check_spacing_valid sel b sp N' = true := by
    intro sel hsel b hb hbe hbs
    exact Hsp sel (fun i hi => by
      obtain ⟨h1, h2⟩ := hsel i hi
      exact ⟨h1, by omega⟩) b (by omega) hbe hbs
  have H2 : ∀ b, b < min N' 32 → elig.testBit b = true →
      MIN_SCORE < scores.getD b MIN_SCORE := by
    intro b hb he
    exact score_gt_min_of_weight weights seed N' b (by omega) (Hw b (by omega) he)
  have Hsel0 : ∀ i, (0 : ℕ).testBit i = true → elig.testBit i = true ∧ i < min N' 32 := by
    intro i hi
    rw [Nat.zero_testBit] at hi
    exact absurd hi (by simp)
  obtain ⟨h1cnt, h1sub, h1card, h1fill⟩ :=
    select_loop_main scores elig N' sp Hsp' H2 target 0 0 Hsel0
  set s1 := select_loop scores elig N' sp target (0, 0) with hs1
  have havail0 : avail elig N' 0 = bit_card 32 elig := by
    rw [avail_sel_zero, hmin, ← bit_card_eq_of_lt_pow hN32 Helig]
  rw [havail0] at h1cnt h1fill
  have hfill : ∀ i, s1.1.testBit i = (decide (i < min N' 32) && elig.testBit i) :=
    h1fill Hbudget
  have hbits : ∀ i, s1.1.testBit i = elig.testBit i := by
    intro i
    rw [hfill i]
    by_cases hi : i < N'
    · rw [decide_eq_true (by omega : i < min N' 32)]
      simp
    · have helig_hi : elig.testBit i = false := by
        apply Nat.testBit_lt_two_pow
        calc elig < 2 ^ N' := Helig
          _ ≤ 2 ^ i := Nat.pow_le_pow_right (by norm_num) (by omega)
      rw [helig_hi, decide_eq_false (by omega : ¬ i < min N' 32)]
      simp
  have hs1elig : s1.1 = elig := Nat.eq_of_testBit_eq (fun i => by rw [hbits i])
  have hav1 : avail elig N' s1.1 = 0 := avail_eq_zero_of_fill hfill
  have hpass2 : (if s1.2 < target ∧ 0 < sp then
      select_loop scores elig N' (sp / 2) (target - s1.2) s1 else s1) = s1 := by
    by_cases hc : s1.2 < target ∧ 0 < sp
    · rw [if_pos hc]
      have := select_loop_avail_zero scores elig N' (sp / 2) (target - s1.2) s1.1 s1.2 hav1
      rw [show (s1.1, s1.2) = s1 from rfl] at this
      rw [this]
    · rw [if_neg hc]
  rw [hpass2]
  by_cases hc : s1.2 < target
  · rw [if_pos hc]
    have := select_loop_avail_zero scores elig N' 0 (target - s1.2) s1.1 s1.2 hav1
    rw [show (s1.1, s1.2) = s1 from rfl] at this
    rw [this, hs1elig]
  · rw [if_neg hc, hs1elig]

theorem getD_replicate_of_lt {α : Type} (x d : α) (n b : ℕ) (hb : b < n) :
    (List.replicate n x).getD b d = x := by
  rw [List.getD_eq_getElem?_getD, List.getElem?_replicate, if_pos hb, Option.getD_some]

theorem select_loop_all_min (scores : List ℝ) (elig N sp : ℕ)
    (h : ∀ b, b < min N 32 → scores.getD b MIN_SCORE ≤ MIN_SCORE) :
    ∀ fuel sel cnt, select_loop scores elig N sp fuel (sel, cnt) = (sel, cnt) := by
  intro fuel
  induction fuel with
  | zero =>
      intro sel cnt
      rfl
  | succ fuel _ =>
      intro sel cnt
      rw [select_loop_succ]
      by_cases hbest : find_best_step scores elig sel N sp < 0
      · rw [if_pos hbest]
      · exfalso
        push_neg at hbest
        obtain ⟨hblt, _, _, _, hgt⟩ := find_best_step_nonneg hbest
        exact absurd hgt (not_lt.mpr (h _ hblt))

/-- The spec says `select_hits_gumbel` always returns exactly
`min(k, popcount(elig), 16)` bits; with an eligible step of weight `0.0`
(a valid weight per the docstring) the step is unselectable and the
returned mask falls short. -/
theorem C1_counterexample :
    ¬ (count_bits (select_hits_gumbel (List.replicate 32 (0 : ℝ)) 1 1 0 16 0) =
        min 1 (min (count_bits 1) 16)) := by
  have hscore : ∀ b, b < min 16 32 →
      (compute_gumbel_scores (List.replicate 32 (0 : ℝ)) 0 (min 16 32)).getD b MIN_SCORE ≤
        MIN_SCORE := by
    intro b hb
    rw [compute_gumbel_scores_getD _ _ _ b hb,
      getD_replicate_of_lt (0 : ℝ) 0 32 b (by omega), if_pos]
    rw [epsilon_cast]
    norm_num
  have hresult : select_hits_gumbel (List.replicate 32 (0 : ℝ)) 1 1 0 16 0 = 0 := by
    unfold select_hits_gumbel
    rw [if_neg (by norm_num)]
    simp only []
    set scores := compute_gumbel_scores (List.replicate 32 (0 : ℝ)) 0 (min 16 32) with hsc
    have hloop : ∀ fuel cnt, select_loop scores 1 (min 16 32) 0 fuel (0, cnt) = (0, cnt) :=
      fun fuel cnt => select_loop_all_min scores 1 (min 16 32) 0 hscore fuel 0 cnt
    rw [hloop]
    have hpass2 : (if ((0 : ℕ), (0 : ℕ)).2 < 1 ⊓ 16 ∧ 0 < 0 then
        select_loop scores 1 (16 ⊓ 32) (0 / 2) (1 ⊓ 16 - ((0 : ℕ), (0 : ℕ)).2) (0, 0)
      else ((0 : ℕ), (0 : ℕ))) = (0, 0) := if_neg (by simp)
    rw [hpass2]
    rw [if_pos (by simp)]
    rw [hloop]
  rw [hresult]
  rw [show count_bits 0 = 0 from rfl, show count_bits 1 = 1 from rfl]
  norm_num

/-- C1 (amended): when the eligibility mask is confined to the
`min(pattern_length, 32)`-bit window and every eligible step has weight at
least `EPSILON`, `select_hits_gumbel` (with the default `min_spacing = 0`)
returns a mask of exactly `min(target_count, popcount(eligibility), 16)`
bits, all within the eligibility mask. -/
theorem C1_gumbel_selection_cardinality (weights : List ℝ) (elig k seed N : ℕ)
    (Helig : elig < 2 ^ min N 32)
    (Hw : ∀ b, b < min N 32 → elig.testBit b = true → (EPSILON : ℝ) ≤ weights.getD b 0) :
    count_bits (select_hits_gumbel weights elig k seed N 0) =
      min k (min (count_bits elig) 16) ∧
    ∀ i, (select_hits_gumbel weights elig k seed N 0).testBit i = true →
      elig.testBit i = true :=
  ⟨select_hits_gumbel_card weights elig k seed N Helig Hw,
    fun i hi => (select_hits_gumbel_subset weights elig k seed N 0 i hi).1⟩

theorem C1_gumbel_selection_cardinality_witness :
    ((5 : ℕ) < 2 ^ min 16 32 ∧
      ∀ b, b < min 16 32 → (5 : ℕ).testBit b = true →
        (EPSILON : ℝ) ≤ (List.replicate 32 (1 : ℝ)).getD b 0) ∧
    (count_bits (select_hits_gumbel (List.replicate 32 (1 : ℝ)) 5 2 0 16 0) =
        min 2 (min (count_bits 5) 16) ∧
      ∀ i, (select_hits_gumbel (List.replicate 32 (1 : ℝ)) 5 2 0 16 0).testBit i = true →
        (5 : ℕ).testBit i = true) := by
  have h1 : (5 : ℕ) < 2 ^ min 16 32 := by norm_num
  have h2 : ∀ b, b < min 16 32 → (5 : ℕ).testBit b = true →
      (EPSILON : ℝ) ≤ (List.replicate 32 (1 : ℝ)).getD b 0 := by
    intro b hb _
    rw [getD_replicate_of_lt (1 : ℝ) 0 32 b (by omega), epsilon_cast]
    norm_num
  exact ⟨⟨h1, h2⟩, C1_gumbel_selection_cardinality (List.replicate 32 (1 : ℝ)) 5 2 0 16 h1 h2⟩

/-- C10: the mask returned by `select_hits_gumbel` has no bit set at or
beyond `min(pattern_length, 32)`, whatever the eligibility mask holds
outside that window. -/
theorem C10_no_bits_beyond_window (weights : List ℝ) (elig k seed N sp i : ℕ)
    (hi : min N 32 ≤ i) :
    (select_hits_gumbel weights elig k seed N sp).testBit i = false := by
  cases hbit : (select_hits_gumbel weights elig k seed N sp).testBit i with
  | false => rfl
  | true =>
      obtain ⟨_, hlt⟩ := select_hits_gumbel_subset weights elig k seed N sp i hbit
      omega

theorem C10_no_bits_beyond_window_witness :
    min 16 32 ≤ 20 ∧
      (select_hits_gumbel (List.replicate 32 (1 : ℝ)) (2 ^ 20) 1 0 16 0).testBit 20 = false :=
  ⟨by norm_num,
    C10_no_bits_beyond_window (List.replicate 32 (1 : ℝ)) (2 ^ 20) 1 0 16 0 20 (by norm_num)⟩

/-! ## Euclidean rhythm generation (euclidean.py) -/

/-- Body of the bucket-fill loop of `generate_euclidean`; state is
`(pattern, placed_hits, accumulator)`. -/
def euclid_main_fold (hits : ℕ) (step_size : ℚ) (st : ℕ × ℕ × ℚ) (i : ℕ) : ℕ × ℕ × ℚ :=
  let acc := st.2.2 + step_size
  if 1 ≤ acc ∧ st.2.1 < hits then (st.1 ||| (1 <<< i), st.2.1 + 1, acc - 1)
  else (st.1, st.2.1, acc)

/-- Body of the reverse backfill loop of `generate_euclidean`; the Python
`break` on `placed_hits >= hits` becomes a skip, which is equivalent since
`placed_hits` never decreases.  State is `(pattern, placed_hits)`. -/
def euclid_backfill_fold (hits : ℕ) (st : ℕ × ℕ) (i : ℕ) : ℕ × ℕ :=
  if hits ≤ st.2 then st
  else if ¬ st.1.testBit i then (st.1 ||| (1 <<< i), st.2 + 1)
  else st

/-- Euclidean rhythm: `hits` distributed evenly across `steps` using the
bucket-fill approximation of Bjorklund's algorithm. -/
def generate_euclidean (hits steps : ℕ) : ℕ :=
  let steps := max 1 (min 32 steps)
  let hits := min hits steps
  if hits = 0 then 0
  else if steps ≤ hits then (1 <<< steps) - 1
  else
    let step_size : ℚ := (hits : ℚ) / (steps : ℚ)
    let main := (List.range steps).foldl (euclid_main_fold hits step_size) (0, 0, 0)
    let back := ((List.range steps).reverse).foldl
      (euclid_backfill_fold hits) (main.1, main.2.1)
    back.1

theorem euclid_main_inv (hits : ℕ) (q : ℚ) (n : ℕ) (hn : n ≤ 32) :
    bit_card 32 ((List.range n).foldl (euclid_main_fold hits q) (0, 0, 0)).1 =
      ((List.range n).foldl (euclid_main_fold hits q) (0, 0, 0)).2.1 ∧
    ((List.range n).foldl (euclid_main_fold hits q) (0, 0, 0)).2.1 ≤ hits ∧
    (∀ i, ((List.range n).foldl (euclid_main_fold hits q) (0, 0, 0)).1.testBit i = true →
      i < n) := by
  induction n with
  | zero =>
      refine ⟨by simp [bit_card_zero], by simp, ?_⟩
      intro i hi
      simp [Nat.zero_testBit] at hi
  | succ n ih =>
      obtain ⟨ih1, ih2, ih3⟩ := ih (by omega)
      rw [List.range_succ, List.foldl_append, List.foldl_cons, List.foldl_nil]
      set st := (List.range n).foldl (euclid_main_fold hits q) (0, 0, 0) with hst
      unfold euclid_main_fold
      by_cases hc : 1 ≤ st.2.2 + q ∧ st.2.1 < hits
      · rw [if_pos hc]
        have hfresh : st.1.testBit n = false := by
          cases h : st.1.testBit n with
          | false => rfl
          | true => exact absurd (ih3 n h) (by omega)
        refine ⟨?_, by simp; omega, ?_⟩
        · show bit_card 32 (st.1 ||| 1 <<< n) = st.2.1 + 1
          rw [Nat.one_shiftLeft, bit_card_lor_two_pow (by omega) hfresh, ih1]
        · intro i hi
          show i < n + 1
          rw [testBit_lor_one_shiftLeft] at hi
          rcases Bool.or_eq_true_iff.mp hi with h | h
          · have := ih3 i h
            omega
          · have : n = i := by simpa using h
            omega
      · rw [if_neg hc]
        exact ⟨ih1, ih2, fun i hi => by have := ih3 i hi; omega⟩

theorem euclid_backfill_done (hits : ℕ) :
    ∀ (l : List ℕ) (p c : ℕ), hits ≤ c →
      l.foldl (euclid_backfill_fold hits) (p, c) = (p, c) := by
  intro l
  induction l with
  | nil =>
      intro p c _
      rfl
  | cons i t ih =>
      intro p c hc
      rw [List.foldl_cons]
      unfold euclid_backfill_fold
      rw [if_pos hc]
      exact ih p c hc

theorem euclid_backfill_fold_eq (hits p c i : ℕ) :
    euclid_backfill_fold hits (p, c) i =
      if hits ≤ c then (p, c)
      else if ¬ p.testBit i then (p ||| 1 <<< i, c + 1) else (p, c) := rfl

theorem euclid_backfill_inv (hits S : ℕ) (hS : S ≤ 32) :
    ∀ (l : List ℕ) (p c : ℕ),
      (∀ i, i ∈ l → i < S) → bit_card 32 p = c → c ≤ hits →
      (∀ i, p.testBit i = true → i < S) →
      bit_card 32 ((l.foldl (euclid_backfill_fold hits) (p, c)).1) =
          (l.foldl (euclid_backfill_fold hits) (p, c)).2 ∧
        (l.foldl (euclid_backfill_fold hits) (p, c)).2 ≤ hits ∧
        (∀ i, (l.foldl (euclid_backfill_fold hits) (p, c)).1.testBit i = true → i < S) ∧
        (∀ i, p.testBit i = true →
          (l.foldl (euclid_backfill_fold hits) (p, c)).1.testBit i = true) ∧
        ((l.foldl (euclid_backfill_fold hits) (p, c)).2 = hits ∨
          ∀ i, i ∈ l → (l.foldl (euclid_backfill_fold hits) (p, c)).1.testBit i = true) := by
  intro l
  induction l with
  | nil =>
      intro p c hl hcard hc hp
      exact ⟨hcard, hc, hp, fun i hi => hi, Or.inr (fun i hi => absurd hi (by simp))⟩
  | cons j t ih =>
      intro p c hl hcard hc hp
      rw [List.foldl_cons, euclid_backfill_fold_eq]
      by_cases hdone : hits ≤ c
      · rw [if_pos hdone]
        have hceq : c = hits := by omega
        rw [euclid_backfill_done hits t p c hdone]
        exact ⟨hcard, hc, hp, fun i hi => hi, Or.inl hceq⟩
      · rw [if_neg hdone]
        have hjS : j < S := hl j (by simp)
        by_cases hbit : p.testBit j
        · rw [if_neg (by simp [hbit])]
          obtain ⟨r1, r2, r3, r4, r5⟩ := ih p c (fun i hi => hl i (by simp [hi])) hcard hc hp
          refine ⟨r1, r2, r3, r4, ?_⟩
          rcases r5 with r5 | r5
          · exact Or.inl r5
          · right
            intro i hi
            rcases List.mem_cons.mp hi with hij | hit
            · subst hij
              exact r4 i hbit
            · exact r5 i hit
        · rw [if_pos (by simp [hbit])]
          have hcard' : bit_card 32 (p ||| 1 <<< j) = c + 1 := by
            rw [Nat.one_shiftLeft,
              bit_card_lor_two_pow (by omega) (Bool.eq_false_iff.mpr hbit), hcard]
          have hp' : ∀ i, (p ||| 1 <<< j).testBit i = true → i < S := by
            intro i hi
            rw [testBit_lor_one_shiftLeft] at hi
            rcases Bool.or_eq_true_iff.mp hi with h | h
            · exact hp i h
            · have : j = i := by simpa using h
              omega
          obtain ⟨r1, r2, r3, r4, r5⟩ := ih (p ||| 1 <<< j) (c + 1)
            (fun i hi => hl i (by simp [hi])) hcard' (by omega) hp'
          refine ⟨r1, r2, r3, ?_, ?_⟩
          · intro i hi
            apply r4
            rw [testBit_lor_one_shiftLeft, hi]
            rfl
          · rcases r5 with r5 | r5
            · exact Or.inl r5
            · right
              intro i hi
              rcases List.mem_cons.mp hi with hij | hit
              · subst hij
                apply r4
                rw [testBit_lor_one_shiftLeft]
                simp
              · exact r5 i hit

theorem digit_count_two_pow_sub_one (S : ℕ) : digit_count ((2 : ℕ) ^ S - 1) = S := by
  induction S with
  | zero =>
      rw [show (2 : ℕ) ^ 0 - 1 = 0 by norm_num, digit_count_zero]
  | succ n ih =>
      have h2 : 0 < (2 : ℕ) ^ n := by positivity
      have heq : (2 : ℕ) ^ (n + 1) - 1 = 2 * ((2 : ℕ) ^ n - 1) + 1 := by
        have : (2 : ℕ) ^ (n + 1) = 2 * 2 ^ n := by ring
        omega
      rw [heq, digit_count_two_mul_add_one, ih]

theorem bit_card_two_pow_sub_one (S : ℕ) (hS : S ≤ 32) :
    bit_card 32 ((1 <<< S) - 1) = S := by
  have hlt : (2 : ℕ) ^ S - 1 < 2 ^ 32 := by
    have h1 : (2 : ℕ) ^ S ≤ 2 ^ 32 := Nat.pow_le_pow_right (by norm_num) hS
    have h2 : 0 < (2 : ℕ) ^ S := by positivity
    omega
  rw [Nat.one_shiftLeft, ← digit_count_eq_bit_card 32 _ hlt, digit_count_two_pow_sub_one]

theorem generate_euclidean_popcount (hits steps : ℕ) (hs1 : 1 ≤ steps) (hs2 : steps ≤ 32) :
    count_bits (generate_euclidean hits steps) = min hits steps := by
  unfold generate_euclidean
  simp only []
  have hsteps : max 1 (min 32 steps) = steps := by omega
  rw [hsteps]
  set H := min hits steps with hH
  by_cases h0 : H = 0
  · rw [if_pos h0, show count_bits 0 = 0 from rfl]
    omega
  · rw [if_neg h0]
    by_cases hge : steps ≤ H
    · rw [if_pos hge]
      have hmask : (1 <<< steps) - 1 < 2 ^ 32 := by
        rw [Nat.one_shiftLeft]
        have h1 : (2 : ℕ) ^ steps ≤ 2 ^ 32 := Nat.pow_le_pow_right (by norm_num) hs2
        have h2 : 0 < (2 : ℕ) ^ steps := by positivity
        omega
      rw [count_bits_eq_popcount _ hmask, popcount, bit_card_two_pow_sub_one steps hs2]
      omega
    · rw [if_neg hge]
      obtain ⟨m1, m2, m3⟩ :=
        euclid_main_inv H ((H : ℚ) / (steps : ℚ)) steps hs2
      set mn := (List.range steps).foldl
        (euclid_main_fold H ((H : ℚ) / (steps : ℚ))) (0, 0, 0) with hmn
      have hmem : ∀ i, i ∈ (List.range steps).reverse → i < steps := by
        intro i hi
        rw [List.mem_reverse, List.mem_range] at hi
        exact hi
      have hm3 : ∀ i, mn.1.testBit i = true → i < steps := m3
      obtain ⟨r1, r2, r3, r4, r5⟩ :=
        euclid_backfill_inv H steps hs2 ((List.range steps).reverse) mn.1 mn.2.1 hmem m1 m2 hm3
      set bk := ((List.range steps).reverse).foldl (euclid_backfill_fold H) (mn.1, mn.2.1)
        with hbk
      have hbklt : bk.1 < 2 ^ 32 := by
        apply lt_two_pow_of_high_bits_false
        intro i hi
        cases h : bk.1.testBit i with
        | false => rfl
        | true =>
            have := r3 i h
            omega
      rw [count_bits_eq_popcount _ hbklt, popcount, r1]
      rcases r5 with r5 | r5
      · omega
      · have hbkall : ∀ i, bk.1.testBit i = decide (i < steps) := by
          intro i
          by_cases hi : i < steps
          · rw [decide_eq_true hi]
            exact r5 i (by rw [List.mem_reverse, List.mem_range]; exact hi)
          · rw [decide_eq_false hi]
            cases h : bk.1.testBit i with
            | false => rfl
            | true => exact absurd (r3 i h) hi
        have hbps : bk.1 = (1 <<< steps) - 1 := by
          apply Nat.eq_of_testBit_eq
          intro i
          rw [hbkall i, Nat.one_shiftLeft, Nat.testBit_two_pow_sub_one]
        have : bit_card 32 bk.1 = steps := by
          rw [hbps]
          exact bit_card_two_pow_sub_one steps hs2
        omega

theorem generate_euclidean_zero (N : ℕ) : generate_euclidean 0 N = 0 := by
  unfold generate_euclidean
  simp only []
  rw [if_pos (by omega : min 0 (max 1 (min 32 N)) = 0)]

theorem generate_euclidean_full (N : ℕ) (h1 : 1 ≤ N) (h2 : N ≤ 32) :
    generate_euclidean N N = (1 <<< N) - 1 := by
  unfold generate_euclidean
  simp only []
  have hs : max 1 (min 32 N) = N := by omega
  rw [hs]
  rw [if_neg (by omega : ¬ min N N = 0), if_pos (by omega : N ≤ min N N)]

/-- C3: for all hits in [0,32] and steps in [1,32], the Euclidean pattern has
exactly `min(hits, steps)` bits set; `generate_euclidean 0 N = 0` and
`generate_euclidean N N` is the full `N`-bit mask. -/
theorem C3_euclidean_exactness :
    (∀ hits steps : ℕ, hits ≤ 32 → 1 ≤ steps → steps ≤ 32 →
      count_bits (generate_euclidean hits steps) = min hits steps) ∧
    (∀ N : ℕ, 1 ≤ N → N ≤ 32 →
      generate_euclidean 0 N = 0 ∧ generate_euclidean N N = (1 <<< N) - 1) :=
  ⟨fun hits steps _ hs1 hs2 => generate_euclidean_popcount hits steps hs1 hs2,
    fun N h1 h2 => ⟨generate_euclidean_zero N, generate_euclidean_full N h1 h2⟩⟩

theorem C3_euclidean_exactness_witness :
    ((4 : ℕ) ≤ 32 ∧ (1 : ℕ) ≤ 16 ∧ (16 : ℕ) ≤ 32) ∧
    count_bits (generate_euclidean 4 16) = min 4 16 ∧
    generate_euclidean 0 16 = 0 ∧ generate_euclidean 16 16 = (1 <<< 16) - 1 :=
  ⟨⟨by norm_num, by norm_num, by norm_num⟩,
    C3_euclidean_exactness.1 4 16 (by norm_num) (by norm_num) (by norm_num),
    (C3_euclidean_exactness.2 16 (by norm_num) (by norm_num)).1,
    (C3_euclidean_exactness.2 16 (by norm_num) (by norm_num)).2⟩

/-- Rotate pattern right by `offset` steps within a `steps`-bit window. -/
def rotate_pattern (pattern : ℕ) (offset : ℤ) (steps : ℕ) : ℕ :=
  let steps := max 1 (min 32 steps)
  let offset := offset % (steps : ℤ)
  let offset := if offset < 0 then offset + steps else offset
  let mask := (1 <<< steps) - 1
  ((pattern >>> offset.toNat) ||| (pattern <<< (steps - offset.toNat))) &&& mask

theorem rotate_expr_testBit (P S off j : ℕ) (hoff : off < S) (hP : P < 2 ^ S) :
    (((P >>> off) ||| (P <<< (S - off))) &&& ((1 <<< S) - 1)).testBit j =
      (decide (j < S) && P.testBit ((j + off) % S)) := by
  rw [Nat.one_shiftLeft, Nat.testBit_land, Nat.testBit_two_pow_sub_one, Nat.testBit_lor,
    Nat.testBit_shiftRight, Nat.testBit_shiftLeft]
  by_cases hj : j < S
  · rw [decide_eq_true hj]
    by_cases hcase : j + off < S
    · have hmod : (j + off) % S = j + off := Nat.mod_eq_of_lt hcase
      have hge : ¬ (j ≥ S - off) := by omega
      rw [hmod, decide_eq_false hge, Nat.add_comm off j]
      simp
    · push_neg at hcase
      have hmod : (j + off) % S = j + off - S := by
        rw [Nat.mod_eq_sub_mod hcase]
        exact Nat.mod_eq_of_lt (by omega)
      have hhigh : P.testBit (off + j) = false := by
        apply Nat.testBit_lt_two_pow
        calc P < 2 ^ S := hP
          _ ≤ 2 ^ (off + j) := Nat.pow_le_pow_right (by norm_num) (by omega)
      have hge : j ≥ S - off := by omega
      have harg : j - (S - off) = j + off - S := by omega
      rw [hmod, decide_eq_true hge, harg, hhigh]
      simp
  · rw [decide_eq_false hj]
    simp

theorem rotate_expr_bit_card (P S off : ℕ) (hS : 0 < S) (hS32 : S ≤ 32) (hoff : off < S)
    (hP : P < 2 ^ S) :
    bit_card 32 (((P >>> off) ||| (P <<< (S - off))) &&& ((1 <<< S) - 1)) =
      bit_card 32 P := by
  have hResLt : ((P >>> off) ||| (P <<< (S - off))) &&& ((1 <<< S) - 1) < 2 ^ S := by
    have h1 : ((P >>> off) ||| (P <<< (S - off))) &&& ((1 <<< S) - 1) ≤ (1 <<< S) - 1 :=
      Nat.and_le_right
    have h2 : 0 < (2 : ℕ) ^ S := by positivity
    rw [Nat.one_shiftLeft] at h1 ⊢
    omega
  rw [bit_card_eq_of_lt_pow hS32 hResLt, bit_card_eq_of_lt_pow hS32 hP]
  unfold bit_card
  rw [Finset.sum_congr rfl (fun j hj => by
    rw [rotate_expr_testBit P S off j hoff hP,
      decide_eq_true (Finset.mem_range.mp hj), Bool.true_and])]
  refine Finset.sum_nbij' (fun j => (j + off) % S) (fun i => (i + (S - off)) % S)
    ?_ ?_ ?_ ?_ ?_
  · intro a ha
    rw [Finset.mem_range] at ha ⊢
    exact Nat.mod_lt _ hS
  · intro a ha
    rw [Finset.mem_range] at ha ⊢
    exact Nat.mod_lt _ hS
  · intro a ha
    rw [Finset.mem_range] at ha
    show ((a + off) % S + (S - off)) % S = a
    rw [Nat.mod_add_mod, show a + off + (S - off) = a + S by omega, Nat.add_mod_right]
    exact Nat.mod_eq_of_lt ha
  · intro a ha
    rw [Finset.mem_range] at ha
    show ((a + (S - off)) % S + off) % S = a
    rw [Nat.mod_add_mod, show a + (S - off) + off = a + S by omega, Nat.add_mod_right]
    exact Nat.mod_eq_of_lt ha
  · intro a _
    rfl

theorem rotate_pattern_count (P : ℕ) (k : ℤ) (N : ℕ)
    (hP : P < 2 ^ (max 1 (min 32 N))) :
    count_bits (rotate_pattern P k N) = count_bits P := by
  unfold rotate_pattern
  simp only []
  set S := max 1 (min 32 N) with hS
  have hSpos : 0 < S := by omega
  have hS32 : S ≤ 32 := by omega
  have hSZ : ((S : ℤ)) ≠ 0 := by
    simp only [Ne, Int.natCast_eq_zero]
    omega
  have hmod_nonneg : 0 ≤ k % (S : ℤ) := Int.emod_nonneg k hSZ
  rw [if_neg (not_lt.mpr hmod_nonneg)]
  set off := (k % (S : ℤ)).toNat with hoffdef
  have hoff : off < S := by
    have hlt := Int.emod_lt_of_pos k (show (0 : ℤ) < (S : ℤ) by exact_mod_cast hSpos)
    rw [hoffdef]
    exact (Int.toNat_lt hmod_nonneg).mpr hlt
  have hP32 : P < 2 ^ 32 :=
    lt_of_lt_of_le hP (Nat.pow_le_pow_right (by norm_num) hS32)
  have hResLt32 : ((P >>> off) ||| (P <<< (S - off))) &&& ((1 <<< S) - 1) < 2 ^ 32 := by
    have h1 : ((P >>> off) ||| (P <<< (S - off))) &&& ((1 <<< S) - 1) ≤ (1 <<< S) - 1 :=
      Nat.and_le_right
    have h2 : (1 : ℕ) <<< S ≤ 1 <<< 32 := by
      rw [Nat.one_shiftLeft, Nat.one_shiftLeft]
      exact Nat.pow_le_pow_right (by norm_num) hS32
    have h3 : (0 : ℕ) < 1 <<< S := by
      rw [Nat.one_shiftLeft]
      positivity
    calc ((P >>> off) ||| (P <<< (S - off))) &&& ((1 <<< S) - 1) ≤ (1 <<< S) - 1 := h1
      _ < 2 ^ 32 := by
        rw [Nat.one_shiftLeft] at h2 h3 ⊢
        omega
  rw [count_bits_eq_popcount _ hResLt32, count_bits_eq_popcount P hP32, popcount, popcount]
  exact rotate_expr_bit_card P S off hSpos hS32 hoff hP

theorem rotate_pattern_full_cycle (P N : ℕ) (h1 : 1 ≤ N) (h2 : N ≤ 32) (hP : P < 2 ^ N) :
    rotate_pattern P (N : ℤ) N = P := by
  unfold rotate_pattern
  simp only []
  have hs : max 1 (min 32 N) = N := by omega
  rw [hs, Int.emod_self, if_neg (by norm_num), show ((0 : ℤ)).toNat = 0 from rfl]
  apply Nat.eq_of_testBit_eq
  intro j
  rw [rotate_expr_testBit P N 0 j (by omega) hP]
  by_cases hj : j < N
  · rw [decide_eq_true hj, Nat.add_zero, Nat.mod_eq_of_lt hj, Bool.true_and]
  · rw [decide_eq_false hj]
    have hhigh : P.testBit j = false := by
      apply Nat.testBit_lt_two_pow
      calc P < 2 ^ N := hP
        _ ≤ 2 ^ j := Nat.pow_le_pow_right (by norm_num) (by omega)
    rw [hhigh]
    simp

/-- The spec claims rotation preserves popcount for ALL patterns P; a pattern
with a bit outside the `steps`-bit window loses that bit to the window mask,
and the full-cycle identity fails for it as well. -/
theorem C5_counterexample :
    ¬ (count_bits (rotate_pattern (2 ^ 16) 0 16) = count_bits (2 ^ 16) ∧
        rotate_pattern (2 ^ 16) 16 16 = 2 ^ 16) := by
  intro h
  obtain ⟨h1, _⟩ := h
  revert h1
  decide

/-- C5 (amended): rotation preserves popcount for every pattern that fits in
the clamped `steps`-bit window, and rotating by a full cycle is the identity
on such patterns. -/
theorem C5_rotation_preserves_weight :
    (∀ (P : ℕ) (k : ℤ) (N : ℕ), P < 2 ^ (max 1 (min 32 N)) →
      count_bits (rotate_pattern P k N) = count_bits P) ∧
    (∀ P N : ℕ, 1 ≤ N → N ≤ 32 → P < 2 ^ N → rotate_pattern P (N : ℤ) N = P) :=
  ⟨rotate_pattern_count, rotate_pattern_full_cycle⟩

theorem C5_rotation_preserves_weight_witness :
    ((0x8888 : ℕ) < 2 ^ (max 1 (min 32 16)) ∧ (1 : ℕ) ≤ 16 ∧ (16 : ℕ) ≤ 32) ∧
    count_bits (rotate_pattern 0x8888 3 16) = count_bits 0x8888 ∧
    rotate_pattern 0x8888 (16 : ℤ) 16 = 0x8888 :=
  ⟨⟨by norm_num, by norm_num, by norm_num⟩,
    C5_rotation_preserves_weight.1 0x8888 3 16 (by norm_num),
    C5_rotation_preserves_weight.2 0x8888 16 (by norm_num) (by norm_num) (by norm_num)⟩

/-! ## Velocity and BUILD engine (velocity.py) -/

def VEL_ACCENT_HASH_MAGIC : ℕ := 0x41434E54

def VEL_VARIATION_HASH_MAGIC : ℕ := 0x56415249

def DEFAULT_ACCENT_MASKS (voice : Voice) : ℕ :=
  match voice with
  | Voice.ANCHOR => 0x11111111
  | Voice.SHIMMER => 0x01010101
  | Voice.AUX => 0x44444444

def clamp (value min_val max_val : ℚ) : ℚ := max min_val (min max_val value)

theorem clamp_id (value min_val max_val : ℚ) (h0 : min_val ≤ value) (h1 : value ≤ max_val) :
    clamp value min_val max_val = value := by
  unfold clamp
  rw [min_eq_right h1, max_eq_right h0]

theorem clamp_mem (value min_val max_val : ℚ) (h : min_val ≤ max_val) :
    min_val ≤ clamp value min_val max_val ∧ clamp value min_val max_val ≤ max_val := by
  unfold clamp
  constructor
  · exact le_max_left _ _
  · apply max_le h
    exact min_le_left _ _

structure PunchParams where
  accent_probability : ℚ
  velocity_floor : ℚ
  accent_boost : ℚ
  velocity_variation : ℚ

/-- PUNCH parameter derived values. -/
def compute_punch_params (punch : ℚ) : PunchParams :=
  let punch := clamp punch 0 1
  { accent_probability := 0.20 + punch * 0.30
    velocity_floor := 0.65 - punch * 0.35
    accent_boost := 0.15 + punch * 0.30
    velocity_variation := 0.03 + punch * 0.12 }

structure BuildModifiers where
  phase : BuildPhase
  density_multiplier : ℚ
  velocity_boost : ℚ
  force_accents : Bool
  in_fill_zone : Bool
  fill_intensity : ℚ
  phrase_progress : ℚ

/-- BUILD parameter modifiers from phrase position; `in_fill_zone` and
`fill_intensity` are the source's post-branch assignments
(`phase == FILL` and `build if in fill zone else 0.0`) resolved per branch. -/
def compute_build_modifiers (build phrase_progress : ℚ) : BuildModifiers :=
  let build := clamp build 0 1
  let pp := clamp phrase_progress 0 1
  if pp < 0.60 then
    { phase := BuildPhase.GROOVE
      density_multiplier := 1
      velocity_boost := 0
      force_accents := false
      in_fill_zone := false
      fill_intensity := 0
      phrase_progress := pp }
  else if pp < 0.875 then
    { phase := BuildPhase.BUILD
      density_multiplier := 1 + build * 0.35 * ((pp - 0.60) / 0.275)
      velocity_boost := build * 0.08 * ((pp - 0.60) / 0.275)
      force_accents := false
      in_fill_zone := false
      fill_intensity := 0
      phrase_progress := pp }
  else
    { phase := BuildPhase.FILL
      density_multiplier := 1 + build * 0.50
      velocity_boost := build * 0.12
      force_accents := decide (build > 0.6)
      in_fill_zone := true
      fill_intensity := build
      phrase_progress := pp }

/-- Accent decision: unconditional under `force_accents`, else a hashed
coin-flip on accent-mask steps. -/
def should_accent (step : ℕ) (accent_mask : ℕ) (accent_probability : ℚ)
    (build_mods : BuildModifiers) (seed : ℕ) : Bool :=
  if build_mods.force_accents then true
  else if ¬ accent_mask.testBit (step &&& 31) then false
  else decide (hash_to_float (seed ^^^ VEL_ACCENT_HASH_MAGIC) step < accent_probability)

/-- Velocity for a single hit, clamped to [0.30, 1.0] at the end. -/
def compute_velocity (punch_params : PunchParams) (build_mods : BuildModifiers)
    (is_accent : Bool) (seed : ℕ) (step : ℕ) : ℚ :=
  let velocity := punch_params.velocity_floor
  let velocity := velocity + build_mods.velocity_boost
  let velocity := if is_accent then velocity + punch_params.accent_boost else velocity
  let velocity := if build_mods.in_fill_zone ∧ 0 < build_mods.fill_intensity then
      velocity + build_mods.fill_intensity * 0.15
    else velocity
  let velocity := if 0.001 < punch_params.velocity_variation then
      velocity + (hash_to_float (seed ^^^ VEL_VARIATION_HASH_MAGIC) step - 0.5) * 2 *
        punch_params.velocity_variation
    else velocity
  clamp velocity 0.30 1

def get_default_accent_mask (voice : Voice) : ℕ := DEFAULT_ACCENT_MASKS voice

theorem compute_velocity_bounds (punch_params : PunchParams) (build_mods : BuildModifiers)
    (is_accent : Bool) (seed : ℕ) (step : ℕ) :
    (0.30 : ℚ) ≤ compute_velocity punch_params build_mods is_accent seed step ∧
      compute_velocity punch_params build_mods is_accent seed step ≤ 1 := by
  unfold compute_velocity
  exact clamp_mem _ _ _ (by norm_num)

/-- C8: compute_build_modifiers is a pure threshold machine on
phrase_progress (GROOVE below 0.60, BUILD below 0.875, FILL at or above),
and force_accents holds exactly in FILL phase with build > 0.6. -/
theorem C8_build_phase_machine (build pp : ℚ) (hb0 : 0 ≤ build) (hb1 : build ≤ 1)
    (hp0 : 0 ≤ pp) (hp1 : pp ≤ 1) :
    ((compute_build_modifiers build pp).phase =
      if pp < 0.60 then BuildPhase.GROOVE
      else if pp < 0.875 then BuildPhase.BUILD
      else BuildPhase.FILL) ∧
    ((compute_build_modifiers build pp).force_accents = true ↔
      ((compute_build_modifiers build pp).phase = BuildPhase.FILL ∧ build > 0.6)) := by
  unfold compute_build_modifiers
  rw [clamp_id build 0 1 hb0 hb1, clamp_id pp 0 1 hp0 hp1]
  by_cases h1 : pp < 0.60
  · rw [if_pos h1, if_pos h1]
    simp
  · rw [if_neg h1, if_neg h1]
    by_cases h2 : pp < 0.875
    · rw [if_pos h2, if_pos h2]
      simp
    · rw [if_neg h2, if_neg h2]
      simp

theorem C8_build_phase_machine_witness :
    ((0 : ℚ) ≤ 0.7 ∧ (0.7 : ℚ) ≤ 1 ∧ (0 : ℚ) ≤ 0.9 ∧ (0.9 : ℚ) ≤ 1) ∧
    ((compute_build_modifiers 0.7 0.9).phase =
      if (0.9 : ℚ) < 0.60 then BuildPhase.GROOVE
      else if (0.9 : ℚ) < 0.875 then BuildPhase.BUILD
      else BuildPhase.FILL) ∧
    ((compute_build_modifiers 0.7 0.9).force_accents = true ↔
      ((compute_build_modifiers 0.7 0.9).phase = BuildPhase.FILL ∧ (0.7 : ℚ) > 0.6)) :=
  ⟨⟨by norm_num, by norm_num, by norm_num, by norm_num⟩,
    (C8_build_phase_machine 0.7 0.9 (by norm_num) (by norm_num) (by norm_num)
      (by norm_num)).1,
    (C8_build_phase_machine 0.7 0.9 (by norm_num) (by norm_num) (by norm_num)
      (by norm_num)).2⟩

/-! ## Hit budget and eligibility (hit_budget.py) -/

structure BarBudget where
  anchor_hits : ℕ
  shimmer_hits : ℕ
  aux_hits : ℕ
  anchor_eligibility : ℕ
  shimmer_eligibility : ℕ
  aux_eligibility : ℕ

def compute_energy_zone (energy : ℚ) : EnergyZone :=
  let energy := clamp energy 0 1
  if energy < 0.20 then EnergyZone.MINIMAL
  else if energy < 0.50 then EnergyZone.GROOVE
  else if energy < 0.75 then EnergyZone.BUILD
  else EnergyZone.PEAK

/-- Anchor hit budget.  The interpolation operand
`(typical_hits - min_hits) * zone_progress + 0.5` stays above `-1` for the
pattern lengths the pipeline admits (>= 16), where Python `int()` and
`py_int` agree. -/
def compute_anchor_budget (energy : ℚ) (zone : EnergyZone) (pattern_length : ℕ) : ℕ :=
  let energy := clamp energy 0 1
  let clamped_length := min pattern_length 32
  let max_hits := clamped_length / 3
  let min_hits : ℕ := match zone with
    | EnergyZone.MINIMAL => 1
    | EnergyZone.GROOVE => 3
    | EnergyZone.BUILD => 4
    | EnergyZone.PEAK => 6
  let typical_hits : ℕ := match zone with
    | EnergyZone.MINIMAL => max 1 (clamped_length / 16)
    | EnergyZone.GROOVE => clamped_length / 6
    | EnergyZone.BUILD => clamped_length / 4
    | EnergyZone.PEAK => clamped_length / 3
  let zone_progress : ℚ := match zone with
    | EnergyZone.MINIMAL => energy / 0.20
    | EnergyZone.GROOVE => (energy - 0.20) / 0.30
    | EnergyZone.BUILD => (energy - 0.50) / 0.25
    | EnergyZone.PEAK => (energy - 0.75) / 0.25
  let zone_progress := clamp zone_progress 0 1
  let hits := min_hits + py_int (((typical_hits : ℚ) - (min_hits : ℚ)) * zone_progress + 0.5)
  max 1 (min hits max_hits)

def compute_shimmer_budget (energy balance : ℚ) (zone : EnergyZone)
    (pattern_length : ℕ) : ℕ :=
  let balance := clamp balance 0 1
  let anchor_budget := compute_anchor_budget energy zone pattern_length
  let shimmer_ratio := balance * 1.5
  let shimmer_ratio := if zone = EnergyZone.GROOVE ∨ zone = EnergyZone.MINIMAL then
      min shimmer_ratio 1
    else shimmer_ratio
  let hits := py_int ((anchor_budget : ℚ) * shimmer_ratio + 0.5)
  let clamped_length := min pattern_length 32
  if zone = EnergyZone.MINIMAL then max 0 (min hits (clamped_length / 8))
  else max 1 (min hits (clamped_length / 4))

def compute_aux_budget (energy : ℚ) (zone : EnergyZone) (pattern_length : ℕ)
    (aux_density : ℚ) : ℕ :=
  let clamped_length := min pattern_length 32
  let base_budget : ℕ := match zone with
    | EnergyZone.MINIMAL => 0
    | EnergyZone.GROOVE => clamped_length / 8
    | EnergyZone.BUILD => clamped_length / 4
    | EnergyZone.PEAK => clamped_length / 2
  let hits := py_int ((base_budget : ℚ) * aux_density + 0.5)
  max 0 (min hits clamped_length)

def compute_anchor_eligibility (energy flavor : ℚ) (zone : EnergyZone)
    (pattern_length : ℕ) : ℕ :=
  let energy := clamp energy 0 1
  let flavor := clamp flavor 0 1
  let clamped_length := min pattern_length 32
  let length_mask := if 32 ≤ clamped_length then 0xFFFFFFFF else (1 <<< clamped_length) - 1
  let eligibility : ℕ := match zone with
    | EnergyZone.MINIMAL => DOWNBEAT_MASK ||| QUARTER_NOTE_MASK
    | EnergyZone.GROOVE =>
        if energy > 0.35 then QUARTER_NOTE_MASK ||| EIGHTH_NOTE_MASK else QUARTER_NOTE_MASK
    | EnergyZone.BUILD =>
        if energy > 0.60 then EIGHTH_NOTE_MASK ||| SIXTEENTH_NOTE_MASK else EIGHTH_NOTE_MASK
    | EnergyZone.PEAK => SIXTEENTH_NOTE_MASK
  let eligibility := if flavor > 0.3 then eligibility ||| OFFBEAT_MASK else eligibility
  let eligibility := if flavor > 0.6 then eligibility ||| SYNCOPATION_MASK else eligibility
  eligibility &&& length_mask

def compute_shimmer_eligibility (energy flavor : ℚ) (zone : EnergyZone)
    (pattern_length : ℕ) : ℕ :=
  let energy := clamp energy 0 1
  let flavor := clamp flavor 0 1
  let clamped_length := min pattern_length 32
  let length_mask := if 32 ≤ clamped_length then 0xFFFFFFFF else (1 <<< clamped_length) - 1
  let eligibility : ℕ := match zone with
    | EnergyZone.MINIMAL => BACKBEAT_MASK
    | EnergyZone.GROOVE =>
        if energy > 0.30 then BACKBEAT_MASK ||| OFFBEAT_MASK else BACKBEAT_MASK
    | EnergyZone.BUILD => EIGHTH_NOTE_MASK
    | EnergyZone.PEAK => SIXTEENTH_NOTE_MASK
  let eligibility := if flavor > 0.4 then eligibility ||| SYNCOPATION_MASK else eligibility
  eligibility &&& length_mask

def compute_aux_eligibility (energy flavor : ℚ) (zone : EnergyZone)
    (pattern_length : ℕ) : ℕ :=
  let energy := clamp energy 0 1
  let clamped_length := min pattern_length 32
  let length_mask := if 32 ≤ clamped_length then 0xFFFFFFFF else (1 <<< clamped_length) - 1
  let eligibility : ℕ := match zone with
    | EnergyZone.MINIMAL => 0
    | EnergyZone.GROOVE => EIGHTH_NOTE_MASK
    | EnergyZone.BUILD =>
        if energy > 0.60 then EIGHTH_NOTE_MASK ||| SIXTEENTH_NOTE_MASK else EIGHTH_NOTE_MASK
    | EnergyZone.PEAK => SIXTEENTH_NOTE_MASK
  eligibility &&& length_mask

def compute_bar_budget (energy balance : ℚ) (zone : EnergyZone) (pattern_length : ℕ)
    (build_multiplier : ℚ) (flavor : ℚ) : BarBudget :=
  let clamped_length := min pattern_length 32
  let anchor_hits := compute_anchor_budget energy zone clamped_length
  let shimmer_hits := compute_shimmer_budget energy balance zone clamped_length
  let aux_hits := compute_aux_budget energy zone clamped_length 1
  let anchor_hits := if build_multiplier > 1 then
      py_int ((anchor_hits : ℚ) * build_multiplier + 0.5) else anchor_hits
  let shimmer_hits := if build_multiplier > 1 then
      py_int ((shimmer_hits : ℚ) * build_multiplier + 0.5) else shimmer_hits
  let aux_hits := if build_multiplier > 1 then
      py_int ((aux_hits : ℚ) * build_multiplier + 0.5) else aux_hits
  let max_hits := clamped_length * 2 / 3
  { anchor_hits := min anchor_hits max_hits
    shimmer_hits := min shimmer_hits max_hits
    aux_hits := min aux_hits clamped_length
    anchor_eligibility := compute_anchor_eligibility energy flavor zone clamped_length
    shimmer_eligibility := compute_shimmer_eligibility energy flavor zone clamped_length
    aux_eligibility := compute_aux_eligibility energy flavor zone clamped_length }

/-! ## Archetypes and field blending (pattern_field.py; archetypes.py is not
part of the provided sources) -/

structure ArchetypeDNA where
  name : String
  grid_x : ℕ
  grid_y : ℕ
  anchor_weights : List ℝ
  shimmer_weights : List ℝ
  aux_weights : List ℝ
  swing_amount : ℚ
  fill_multiplier : ℚ
  accent_mask : ℕ

/-- Modelled from the spec: the static archetype table of `archetypes.py` is
absent from the sources; the spec fixes only its shape (27 archetypes keyed
by genre and a 3x3 grid, each with three 32-length weight arrays valued in
[0,1], swing, fill multiplier, accent mask, name), so the table is taken as
a parameter of this shape wherever a theorem holds for every table. -/
def ArchTable : Type := Genre → Fin 3 → Fin 3 → ArchetypeDNA

/-- Modelled from the spec: `get_archetype(genre, x, y)` clamps `x, y` to
`[0, 2]` and looks the archetype up in the static table. -/
def get_archetype (tbl : ArchTable) (genre : Genre) (x y : ℤ) : ArchetypeDNA :=
  let cx : Fin 3 := if x ≤ 0 then 0 else if 2 ≤ x then 2 else 1
  let cy : Fin 3 := if y ≤ 0 then 0 else if 2 ≤ y then 2 else 1
  tbl genre cx cy

/-- Modelled from the spec: a concrete table instance used for the claims
that depend on actual archetype data; every weight is 1.0 (within the
spec's documented [0,1] range). -/
def uniform_table : ArchTable := fun _ x y =>
  { name := "uniform"
    grid_x := (x : ℕ)
    grid_y := (y : ℕ)
    anchor_weights := List.replicate 32 1
    shimmer_weights := List.replicate 32 1
    aux_weights := List.replicate 32 1
    swing_amount := 0
    fill_multiplier := 1.3
    accent_mask := QUARTER_NOTE_MASK }

/-- Softmax with temperature over the corner distances (numerically
stabilized in the source by subtracting the maximum score). -/
noncomputable def softmax_weights (distances : List ℝ) (temperature : ℚ) : List ℝ :=
  let temperature := if temperature ≤ 0 then (0.01 : ℚ) else temperature
  let scores := distances.map (fun d => -d / (temperature : ℝ))
  let max_score := scores.foldl max (scores.headD 0)
  let exp_weights := scores.map (fun s => Real.exp (s - max_score))
  let total := exp_weights.sum
  if total ≤ 0 then List.replicate exp_weights.length ((1 : ℝ) / (exp_weights.length : ℝ))
  else exp_weights.map (fun w => w / total)

/-- Weighted blend of per-step arrays: entry `i` of the result is the
weight-scaled sum of entry `i` across the arrays (the source accumulates
per array, which computes the same sums). -/
noncomputable def blend_arrays (arrays : List (List ℝ)) (weights : List ℝ) : List ℝ :=
  match arrays with
  | [] => List.replicate 32 0
  | a0 :: _ =>
      (List.range a0.length).map (fun i =>
        (arrays.zip weights).foldl (fun acc aw => acc + aw.1.getD i 0 * aw.2) 0)

structure BlendedArchetype where
  anchor_weights : List ℝ
  shimmer_weights : List ℝ
  aux_weights : List ℝ
  swing_amount : ℝ
  accent_mask : ℕ
  fill_multiplier : ℝ

/-- First index of the maximal softmax weight (Python
`weights.index(max(weights))`). -/
noncomputable def idx_of_max (l : List ℝ) : ℕ :=
  let m := l.foldl max (l.headD 0)
  l.findIdx (fun w => @decide (w = m) (Classical.propDecidable _))

noncomputable def blend_archetypes (tbl : ArchTable) (genre : Genre)
    (field_x field_y : ℚ) (temperature : ℚ) : BlendedArchetype :=
  let field_x := clamp field_x 0 1
  let field_y := clamp field_y 0 1
  let grid_x : ℚ := field_x * 2
  let grid_y : ℚ := field_y * 2
  let x0 := py_int grid_x
  let y0 := py_int grid_y
  let x1 := min (x0 + 1) 2
  let y1 := min (y0 + 1) 2
  let fx : ℚ := grid_x - (x0 : ℚ)
  let fy : ℚ := grid_y - (y0 : ℚ)
  let corners := [get_archetype tbl genre (x0 : ℤ) (y0 : ℤ),
    get_archetype tbl genre (x1 : ℤ) (y0 : ℤ),
    get_archetype tbl genre (x0 : ℤ) (y1 : ℤ),
    get_archetype tbl genre (x1 : ℤ) (y1 : ℤ)]
  let distances : List ℝ := [Real.sqrt (((fx * fx : ℚ) : ℝ) + ((fy * fy : ℚ) : ℝ)),
    Real.sqrt ((((1 - fx) * (1 - fx) : ℚ) : ℝ) + ((fy * fy : ℚ) : ℝ)),
    Real.sqrt (((fx * fx : ℚ) : ℝ) + (((1 - fy) * (1 - fy) : ℚ) : ℝ)),
    Real.sqrt ((((1 - fx) * (1 - fx) : ℚ) : ℝ) + (((1 - fy) * (1 - fy) : ℚ) : ℝ))]
  let weights := softmax_weights distances temperature
  { anchor_weights := blend_arrays (corners.map (fun c => c.anchor_weights)) weights
    shimmer_weights := blend_arrays (corners.map (fun c => c.shimmer_weights)) weights
    aux_weights := blend_arrays (corners.map (fun c => c.aux_weights)) weights
    swing_amount := ((corners.zip weights).map
      (fun cw => ((cw.1.swing_amount : ℚ) : ℝ) * cw.2)).sum
    fill_multiplier := ((corners.zip weights).map
      (fun cw => ((cw.1.fill_multiplier : ℚ) : ℝ) * cw.2)).sum
    accent_mask := match corners[idx_of_max weights]? with
      | some c => c.accent_mask
      | none => QUARTER_NOTE_MASK }

/-- Python banker's rounding (`round`), ties to even. -/
def py_round (q : ℚ) : ℤ :=
  let f := ⌊q⌋
  let frac := q - (f : ℚ)
  if frac < 1 / 2 then f
  else if 1 / 2 < frac then f + 1
  else if f % 2 = 0 then f else f + 1

def get_dominant_archetype (tbl : ArchTable) (genre : Genre)
    (field_x field_y : ℚ) : ArchetypeDNA :=
  get_archetype tbl genre (py_round (field_x * 2)) (py_round (field_y * 2))

/-! ## Genre Euclidean ratio and blending (euclidean.py) -/

def get_genre_euclidean_ratio (genre : Genre) (field_x : ℚ) (zone : EnergyZone) : ℚ :=
  if zone ≠ EnergyZone.MINIMAL ∧ zone ≠ EnergyZone.GROOVE then 0
  else
    let field_x := clamp field_x 0 1
    let base_ratio : ℚ := match genre with
      | Genre.TECHNO => 0.70
      | Genre.TRIBAL => 0.40
      | Genre.IDM => 0
    let taper := 1 - 0.7 * field_x
    clamp (base_ratio * taper) 0 1

/-- Python `x & ~y` on nonnegative ints: bits of `x` that are not in `y`. -/
def and_not (x y : ℕ) : ℕ := Nat.bitwise (fun a b => a && !b) x y

noncomputable def blend_euclidean_with_weights (budget steps : ℕ) (weights : List ℝ)
    (eligibility : ℕ) (euclidean_ratio : ℚ) (seed : ℕ) : ℕ :=
  let euclidean_ratio := clamp euclidean_ratio 0 1
  let steps := max 1 (min 32 steps)
  if budget = 0 then 0
  else if euclidean_ratio < 0.01 then
    select_hits_gumbel weights eligibility budget seed steps 0
  else if euclidean_ratio > 0.99 then
    rotate_pattern (generate_euclidean budget steps) ((seed % steps : ℕ) : ℤ) steps &&&
      eligibility
  else
    let euclidean_hits := py_int ((budget : ℚ) * euclidean_ratio)
    let gumbel_hits := budget - euclidean_hits
    let euclidean_pattern :=
      rotate_pattern (generate_euclidean euclidean_hits steps) ((seed % steps : ℕ) : ℤ)
        steps &&& eligibility
    let remaining_eligibility := and_not eligibility euclidean_pattern
    let gumbel_pattern := select_hits_gumbel weights remaining_eligibility gumbel_hits
      (seed ^^^ 0xE0C1) steps 0
    euclidean_pattern ||| gumbel_pattern

/-! ## Pipeline orchestration (pipeline.py) -/

structure PatternOutput where
  anchor_mask : ℕ
  shimmer_mask : ℕ
  aux_mask : ℕ
  anchor_velocities : List ℚ
  shimmer_velocities : List ℚ
  aux_velocities : List ℚ
  pattern_length : ℕ
  anchor_hits : ℕ
  shimmer_hits : ℕ
  aux_hits : ℕ
  dominant_archetype : String
  blended_swing : ℝ
  energy_zone : EnergyZone

/-- Voice coupling post-processing of the shimmer mask. -/
def apply_voice_coupling (anchor_mask shimmer_mask : ℕ) (coupling : VoiceCoupling)
    (pattern_length : ℕ) : ℕ :=
  match coupling with
  | VoiceCoupling.INDEPENDENT => shimmer_mask
  | VoiceCoupling.INTERLOCK => and_not shimmer_mask anchor_mask
  | VoiceCoupling.SHADOW =>
      let length_mask := if pattern_length < 32 then (1 <<< pattern_length) - 1
        else 0xFFFFFFFF
      ((anchor_mask <<< 1) ||| (anchor_mask >>> (pattern_length - 1))) &&& length_mask

/-- One bar of the full generation pipeline (`generate_pattern`), with the
archetype table passed in since `archetypes.py` is not among the sources. -/
noncomputable def generate_pattern (tbl : ArchTable) (energy build field_x field_y punch : ℚ)
    (genre : Genre) (drift balance : ℚ) (pattern_length : ℕ) (phrase_progress swing : ℚ)
    (voice_coupling : VoiceCoupling) (seed : ℕ) : PatternOutput :=
  let energy := clamp energy 0 1
  let build := clamp build 0 1
  let field_x := clamp field_x 0 1
  let field_y := clamp field_y 0 1
  let punch := clamp punch 0 1
  let balance := clamp balance 0 1
  let pattern_length := max 16 (min 64 pattern_length)
  let clamped_length := min pattern_length 32
  let zone := compute_energy_zone energy
  let blended := blend_archetypes tbl genre field_x field_y 0.5
  let dominant := get_dominant_archetype tbl genre field_x field_y
  let build_mods := compute_build_modifiers build phrase_progress
  let budget := compute_bar_budget energy balance zone clamped_length
    build_mods.density_multiplier field_x
  let euclidean_ratio := get_genre_euclidean_ratio genre field_x zone
  let min_spacing := get_min_spacing_for_zone zone
  let anchor_mask := if euclidean_ratio > 0.01 then
      blend_euclidean_with_weights budget.anchor_hits clamped_length blended.anchor_weights
        budget.anchor_eligibility euclidean_ratio seed
    else
      select_hits_gumbel blended.anchor_weights budget.anchor_eligibility budget.anchor_hits
        seed clamped_length min_spacing
  let shimmer_seed := seed ^^^ 0x12345
  let shimmer_mask := if euclidean_ratio > 0.01 then
      blend_euclidean_with_weights budget.shimmer_hits clamped_length
        blended.shimmer_weights budget.shimmer_eligibility (euclidean_ratio * 0.5)
        shimmer_seed
    else
      select_hits_gumbel blended.shimmer_weights budget.shimmer_eligibility
        budget.shimmer_hits shimmer_seed clamped_length min_spacing
  let shimmer_mask := apply_voice_coupling anchor_mask shimmer_mask voice_coupling
    clamped_length
  let aux_seed := seed ^^^ 0x67890
  let aux_mask := select_hits_gumbel blended.aux_weights budget.aux_eligibility
    budget.aux_hits aux_seed clamped_length 0
  let punch_params := compute_punch_params punch
  let anchor_accent_mask := get_default_accent_mask Voice.ANCHOR
  let shimmer_accent_mask := get_default_accent_mask Voice.SHIMMER
  let aux_accent_mask := get_default_accent_mask Voice.AUX
  { anchor_mask := anchor_mask
    shimmer_mask := shimmer_mask
    aux_mask := aux_mask
    anchor_velocities := (List.range 32).map (fun step =>
      if step < clamped_length ∧ anchor_mask.testBit step then
        compute_velocity punch_params build_mods
          (should_accent step anchor_accent_mask punch_params.accent_probability
            build_mods seed) seed step
      else 0)
    shimmer_velocities := (List.range 32).map (fun step =>
      if step < clamped_length ∧ shimmer_mask.testBit step then
        compute_velocity punch_params build_mods
          (should_accent step shimmer_accent_mask punch_params.accent_probability
            build_mods shimmer_seed) shimmer_seed step
      else 0)
    aux_velocities := (List.range 32).map (fun step =>
      if step < clamped_length ∧ aux_mask.testBit step then
        compute_velocity punch_params build_mods
          (should_accent step aux_accent_mask punch_params.accent_probability
            build_mods aux_seed) aux_seed step
      else 0)
    pattern_length := clamped_length
    anchor_hits := count_bits anchor_mask
    shimmer_hits := count_bits shimmer_mask
    aux_hits := count_bits aux_mask
    dominant_archetype := dominant.name
    blended_swing := blended.swing_amount
    energy_zone := zone }

/-- A phrase: one pattern per bar, with phrase progress `bar / bars` and a
per-bar seed that is frozen when `drift < 0.01`. -/
noncomputable def generate_phrase (tbl : ArchTable) (bars : ℕ)
    (energy build field_x field_y punch : ℚ) (genre : Genre) (drift balance : ℚ)
    (pattern_length : ℕ) (swing : ℚ) (voice_coupling : VoiceCoupling) (seed : ℕ) :
    List PatternOutput :=
  (List.range bars).map (fun (bar : ℕ) =>
    let phrase_progress : ℚ := (bar : ℚ) / (bars : ℚ)
    let bar_seed := if drift < 0.01 then seed else seed ^^^ (bar * 0x1234567 : ℕ)
    generate_pattern tbl energy build field_x field_y punch genre drift balance
      pattern_length phrase_progress swing voice_coupling bar_seed)

/-! ## Voice coupling: disjointness and shadow rotation -/

theorem and_not_testBit (x y i : ℕ) :
    (and_not x y).testBit i = (x.testBit i && !(y.testBit i)) := by
  unfold and_not
  rw [Nat.testBit_bitwise (by decide)]

theorem land_and_not_self (a s : ℕ) : a &&& and_not s a = 0 := by
  apply Nat.eq_of_testBit_eq
  intro i
  rw [Nat.testBit_land, and_not_testBit, Nat.zero_testBit]
  cases a.testBit i <;> simp

theorem and_not_lt_two_pow {x : ℕ} (y : ℕ) {n : ℕ} (hx : x < 2 ^ n) :
    and_not x y < 2 ^ n := by
  apply lt_two_pow_of_high_bits_false
  intro i hi
  rw [and_not_testBit]
  have : x.testBit i = false := by
    apply Nat.testBit_lt_two_pow
    calc x < 2 ^ n := hx
      _ ≤ 2 ^ i := Nat.pow_le_pow_right (by norm_num) hi
  rw [this]
  rfl

theorem select_hits_gumbel_lt_window (weights : List ℝ) (elig k seed N sp : ℕ) :
    select_hits_gumbel weights elig k seed N sp < 2 ^ min N 32 := by
  apply lt_two_pow_of_high_bits_false
  intro i hi
  cases hbit : (select_hits_gumbel weights elig k seed N sp).testBit i with
  | false => rfl
  | true =>
      obtain ⟨_, hlt⟩ := select_hits_gumbel_subset weights elig k seed N sp i hbit
      omega

theorem rotate_pattern_lt (P : ℕ) (off : ℤ) (N : ℕ) :
    rotate_pattern P off N < 2 ^ max 1 (min 32 N) := by
  unfold rotate_pattern
  simp only []
  set S := max 1 (min 32 N) with hS
  have h1 : ∀ o m, (P >>> o ||| P <<< m) &&& ((1 <<< S) - 1) ≤ (1 <<< S) - 1 :=
    fun o m => Nat.and_le_right
  have h2 : (0 : ℕ) < 2 ^ S := by positivity
  have h3 := h1 (if off % (S : ℤ) < 0 then off % (S : ℤ) + (S : ℤ) else off % (S : ℤ)).toNat
    (S - (if off % (S : ℤ) < 0 then off % (S : ℤ) + (S : ℤ) else off % (S : ℤ)).toNat)
  have h4 : (1 : ℕ) <<< S = 2 ^ S := Nat.one_shiftLeft S
  rw [h4] at h3 ⊢
  omega

theorem blend_euclidean_lt (budget steps : ℕ) (weights : List ℝ) (elig : ℕ) (r : ℚ)
    (seed : ℕ) (h1 : 1 ≤ steps) (h2 : steps ≤ 32) :
    blend_euclidean_with_weights budget steps weights elig r seed < 2 ^ steps := by
  unfold blend_euclidean_with_weights
  simp only []
  rw [show max 1 (min 32 steps) = steps by omega]
  have hsel : ∀ w e k s sp, select_hits_gumbel w e k s steps sp < 2 ^ steps := by
    intro w e k s sp
    have := select_hits_gumbel_lt_window w e k s steps sp
    rwa [show min steps 32 = steps by omega] at this
  have hrot : ∀ h o, rotate_pattern h o steps &&& elig < 2 ^ steps := by
    intro h o
    calc rotate_pattern h o steps &&& elig ≤ rotate_pattern h o steps := Nat.and_le_left
      _ < 2 ^ max 1 (min 32 steps) := rotate_pattern_lt h o steps
      _ = 2 ^ steps := by rw [show max 1 (min 32 steps) = steps by omega]
  split
  · positivity
  · split
    · exact hsel _ _ _ _ _
    · split
      · exact hrot _ _
      · exact Nat.or_lt_two_pow (hrot _ _) (hsel _ _ _ _ _)

theorem length_mask_eq (L : ℕ) (h : L ≤ 32) :
    (if L < 32 then (1 <<< L) - 1 else (0xFFFFFFFF : ℕ)) = 2 ^ L - 1 := by
  by_cases hL : L < 32
  · rw [if_pos hL, Nat.one_shiftLeft]
  · rw [if_neg hL]
    have : L = 32 := by omega
    subst this
    norm_num

theorem apply_voice_coupling_lt {a s : ℕ} (c : VoiceCoupling) (L : ℕ)
    (h2 : L ≤ 32) (ha : a < 2 ^ L) (hs : s < 2 ^ L) :
    apply_voice_coupling a s c L < 2 ^ L := by
  cases c with
  | INDEPENDENT => exact hs
  | INTERLOCK => exact and_not_lt_two_pow a hs
  | SHADOW =>
      show ((a <<< 1) ||| (a >>> (L - 1))) &&&
        (if L < 32 then (1 <<< L) - 1 else 0xFFFFFFFF) < 2 ^ L
      rw [length_mask_eq L h2]
      have h1 : ((a <<< 1) ||| (a >>> (L - 1))) &&& (2 ^ L - 1) ≤ 2 ^ L - 1 :=
        Nat.and_le_right
      have h0 : (0 : ℕ) < 2 ^ L := by positivity
      omega

/-- The SHADOW branch of `_apply_voice_coupling` is a circular rotation of
the anchor mask within the pattern window, so its popcount is the anchor's. -/
theorem apply_voice_coupling_shadow_count (a s L : ℕ) (h1 : 1 ≤ L) (h2 : L ≤ 32)
    (ha : a < 2 ^ L) :
    count_bits (apply_voice_coupling a s VoiceCoupling.SHADOW L) = count_bits a := by
  show count_bits (((a <<< 1) ||| (a >>> (L - 1))) &&&
    (if L < 32 then (1 <<< L) - 1 else 0xFFFFFFFF)) = count_bits a
  rw [length_mask_eq L h2, Nat.lor_comm, ← Nat.one_shiftLeft,
    show a <<< 1 = a <<< (L - (L - 1)) by rw [show L - (L - 1) = 1 by omega]]
  have hA32 : a < 2 ^ 32 := lt_of_lt_of_le ha (Nat.pow_le_pow_right (by norm_num) h2)
  have hmask : (0 : ℕ) < 1 <<< L := by
    rw [Nat.one_shiftLeft]
    positivity
  have hres32 : (a >>> (L - 1) ||| a <<< (L - (L - 1))) &&& ((1 <<< L) - 1) < 2 ^ 32 := by
    have hle : (a >>> (L - 1) ||| a <<< (L - (L - 1))) &&& ((1 <<< L) - 1) ≤ (1 <<< L) - 1 :=
      Nat.and_le_right
    have h32 : (1 : ℕ) <<< L ≤ 1 <<< 32 := by
      rw [Nat.one_shiftLeft, Nat.one_shiftLeft]
      exact Nat.pow_le_pow_right (by norm_num) h2
    have : (1 : ℕ) <<< 32 = 2 ^ 32 := by rw [Nat.one_shiftLeft]
    omega
  rw [count_bits_eq_popcount _ hres32, count_bits_eq_popcount a hA32, popcount, popcount]
  exact rotate_expr_bit_card a L (L - 1) (by omega) h2 (by omega) ha

theorem clamped_length_bounds (pl : ℕ) :
    1 ≤ min (max 16 (min 64 pl)) 32 ∧ min (max 16 (min 64 pl)) 32 ≤ 32 := by omega

/-- C7: with voice_coupling = INTERLOCK, the anchor and shimmer masks of any
generated pattern are disjoint: their bitwise AND is zero, for every
archetype table, every control parameter setting and every seed. -/
theorem C7_interlock_disjoint (tbl : ArchTable) (energy build field_x field_y punch : ℚ)
    (genre : Genre) (drift balance : ℚ) (pattern_length : ℕ) (phrase_progress swing : ℚ)
    (seed : ℕ) :
    (generate_pattern tbl energy build field_x field_y punch genre drift balance
        pattern_length phrase_progress swing VoiceCoupling.INTERLOCK seed).anchor_mask &&&
      (generate_pattern tbl energy build field_x field_y punch genre drift balance
        pattern_length phrase_progress swing VoiceCoupling.INTERLOCK seed).shimmer_mask
      = 0 := by
  unfold generate_pattern
  dsimp only [apply_voice_coupling]
  exact land_and_not_self _ _

/-- C9: with voice_coupling = SHADOW, the shimmer mask is the anchor mask
rotated by one step inside the pattern-length window, so the reported
shimmer hit count equals the anchor hit count, for every archetype table,
parameter setting and seed. -/
theorem C9_shadow_hits_equal (tbl : ArchTable) (energy build field_x field_y punch : ℚ)
    (genre : Genre) (drift balance : ℚ) (pattern_length : ℕ) (phrase_progress swing : ℚ)
    (seed : ℕ) :
    (generate_pattern tbl energy build field_x field_y punch genre drift balance
        pattern_length phrase_progress swing VoiceCoupling.SHADOW seed).shimmer_hits =
      (generate_pattern tbl energy build field_x field_y punch genre drift balance
        pattern_length phrase_progress swing VoiceCoupling.SHADOW seed).anchor_hits := by
  obtain ⟨hL1, hL2⟩ := clamped_length_bounds pattern_length
  unfold generate_pattern
  dsimp only []
  apply apply_voice_coupling_shadow_count _ _ _ hL1 hL2
  split
  · exact blend_euclidean_lt _ _ _ _ _ _ hL1 hL2
  · have := select_hits_gumbel_lt_window (blend_archetypes tbl genre (clamp field_x 0 1)
      (clamp field_y 0 1) 0.5).anchor_weights
      (compute_bar_budget (clamp energy 0 1) (clamp balance 0 1)
        (compute_energy_zone (clamp energy 0 1)) (min (max 16 (min 64 pattern_length)) 32)
        (compute_build_modifiers (clamp build 0 1) phrase_progress).density_multiplier
        (clamp field_x 0 1)).anchor_eligibility
      (compute_bar_budget (clamp energy 0 1) (clamp balance 0 1)
        (compute_energy_zone (clamp energy 0 1)) (min (max 16 (min 64 pattern_length)) 32)
        (compute_build_modifiers (clamp build 0 1) phrase_progress).density_multiplier
        (clamp field_x 0 1)).anchor_hits
      seed (min (max 16 (min 64 pattern_length)) 32)
      (get_min_spacing_for_zone (compute_energy_zone (clamp energy 0 1)))
    rwa [show min (min (max 16 (min 64 pattern_length)) 32) 32 =
      min (max 16 (min 64 pattern_length)) 32 by omega] at this

/-! ## Velocity bounds of the emitted pattern -/

theorem map_range_getD (f : ℕ → ℚ) (step : ℕ) (h : step < 32) :
    ((List.range 32).map f).getD step 0 = f step := by
  rw [List.getD_eq_getElem?_getD, List.getElem?_map, List.getElem?_range h]
  rfl

theorem map_range_getD_high (f : ℕ → ℚ) (step : ℕ) (h : 32 ≤ step) :
    ((List.range 32).map f).getD step 0 = 0 := by
  rw [List.getD_eq_getElem?_getD, List.getElem?_eq_none (by simpa using h)]
  rfl

/-- The per-step velocity lists built by `generate_pattern`: a firing step
(inside the window forced by the mask bound) gets a clamped velocity, any
other step keeps the 0.0 default. -/
theorem velocity_list_spec (L mask : ℕ) (f : ℕ → ℚ) (hL : L ≤ 32)
    (hmask : mask < 2 ^ L) (hf : ∀ s, 0.30 ≤ f s ∧ f s ≤ 1) (step : ℕ) :
    if mask.testBit step then
      0.30 ≤ ((List.range 32).map
          (fun s => if s < L ∧ mask.testBit s then f s else 0)).getD step 0 ∧
        ((List.range 32).map
          (fun s => if s < L ∧ mask.testBit s then f s else 0)).getD step 0 ≤ 1
    else ((List.range 32).map
        (fun s => if s < L ∧ mask.testBit s then f s else 0)).getD step 0 = 0 := by
  by_cases hb : mask.testBit step = true
  · rw [if_pos hb]
    have hstep : step < L := by
      by_contra hge
      have hhigh : mask.testBit step = false := by
        apply Nat.testBit_lt_two_pow
        calc mask < 2 ^ L := hmask
          _ ≤ 2 ^ step := Nat.pow_le_pow_right (by norm_num) (by omega)
      rw [hhigh] at hb
      exact absurd hb (by simp)
    rw [map_range_getD _ step (by omega), if_pos ⟨hstep, hb⟩]
    exact hf step
  · rw [if_neg hb]
    by_cases h32 : step < 32
    · rw [map_range_getD _ step h32, if_neg (fun hc => hb hc.2)]
    · exact map_range_getD_high _ step (by omega)

theorem select_hits_gumbel_lt_clamped (weights : List ℝ) (elig k seed sp pl : ℕ) :
    select_hits_gumbel weights elig k seed (min (max 16 (min 64 pl)) 32) sp <
      2 ^ min (max 16 (min 64 pl)) 32 := by
  have := select_hits_gumbel_lt_window weights elig k seed
    (min (max 16 (min 64 pl)) 32) sp
  rwa [show min (min (max 16 (min 64 pl)) 32) 32 =
    min (max 16 (min 64 pl)) 32 by omega] at this

/-- C6: in every generated pattern, for each voice and step, a firing step's
velocity lies in [0.30, 1.0] and a non-firing step's velocity is exactly 0. -/
theorem C6_velocity_bounds (tbl : ArchTable) (energy build field_x field_y punch : ℚ)
    (genre : Genre) (drift balance : ℚ) (pattern_length : ℕ) (phrase_progress swing : ℚ)
    (voice_coupling : VoiceCoupling) (seed : ℕ) (step : ℕ) :
    (if (generate_pattern tbl energy build field_x field_y punch genre drift balance
          pattern_length phrase_progress swing voice_coupling seed).anchor_mask.testBit
          step then
        0.30 ≤ (generate_pattern tbl energy build field_x field_y punch genre drift balance
            pattern_length phrase_progress swing voice_coupling
            seed).anchor_velocities.getD step 0 ∧
          (generate_pattern tbl energy build field_x field_y punch genre drift balance
            pattern_length phrase_progress swing voice_coupling
            seed).anchor_velocities.getD step 0 ≤ 1
      else (generate_pattern tbl energy build field_x field_y punch genre drift balance
          pattern_length phrase_progress swing voice_coupling
          seed).anchor_velocities.getD step 0 = 0) ∧
    (if (generate_pattern tbl energy build field_x field_y punch genre drift balance
          pattern_length phrase_progress swing voice_coupling seed).shimmer_mask.testBit
          step then
        0.30 ≤ (generate_pattern tbl energy build field_x field_y punch genre drift balance
            pattern_length phrase_progress swing voice_coupling
            seed).shimmer_velocities.getD step 0 ∧
          (generate_pattern tbl energy build field_x field_y punch genre drift balance
            pattern_length phrase_progress swing voice_coupling
            seed).shimmer_velocities.getD step 0 ≤ 1
      else (generate_pattern tbl energy build field_x field_y punch genre drift balance
          pattern_length phrase_progress swing voice_coupling
          seed).shimmer_velocities.getD step 0 = 0) ∧
    (if (generate_pattern tbl energy build field_x field_y punch genre drift balance
          pattern_length phrase_progress swing voice_coupling seed).aux_mask.testBit
          step then
        0.30 ≤ (generate_pattern tbl energy build field_x field_y punch genre drift balance
            pattern_length phrase_progress swing voice_coupling
            seed).aux_velocities.getD step 0 ∧
          (generate_pattern tbl energy build field_x field_y punch genre drift balance
            pattern_length phrase_progress swing voice_coupling
            seed).aux_velocities.getD step 0 ≤ 1
      else (generate_pattern tbl energy build field_x field_y punch genre drift balance
          pattern_length phrase_progress swing voice_coupling
          seed).aux_velocities.getD step 0 = 0) := by
  obtain ⟨hL1, hL2⟩ := clamped_length_bounds pattern_length
  unfold generate_pattern
  dsimp only []
  refine ⟨velocity_list_spec _ _ _ hL2 ?_ ?_ step,
    velocity_list_spec _ _ _ hL2 ?_ ?_ step,
    velocity_list_spec _ _ _ hL2 ?_ ?_ step⟩
  · split
    · exact blend_euclidean_lt _ _ _ _ _ _ hL1 hL2
    · exact select_hits_gumbel_lt_clamped _ _ _ _ _ _
  · exact fun s => compute_velocity_bounds _ _ _ _ _
  · apply apply_voice_coupling_lt _ _ hL2
    · split
      · exact blend_euclidean_lt _ _ _ _ _ _ hL1 hL2
      · exact select_hits_gumbel_lt_clamped _ _ _ _ _ _
    · split
      · exact blend_euclidean_lt _ _ _ _ _ _ hL1 hL2
      · exact select_hits_gumbel_lt_clamped _ _ _ _ _ _
  · exact fun s => compute_velocity_bounds _ _ _ _ _
  · exact select_hits_gumbel_lt_clamped _ _ _ _ _ _
  · exact fun s => compute_velocity_bounds _ _ _ _ _

/-! ## Hit counts versus eligibility popcounts -/

theorem count_le_popcount_of_subset {A E : ℕ} (hA : A < 2 ^ 32)
    (hsub : ∀ i, A.testBit i = true → E.testBit i = true) :
    count_bits A ≤ popcount E := by
  rw [count_bits_eq_popcount A hA]
  exact bit_card_le_of_subset 32 hsub

theorem blend_euclidean_subset (budget steps : ℕ) (weights : List ℝ) (elig : ℕ) (r : ℚ)
    (seed : ℕ) (i : ℕ)
    (hi : (blend_euclidean_with_weights budget steps weights elig r seed).testBit i = true) :
    elig.testBit i = true := by
  unfold blend_euclidean_with_weights at hi
  simp only [] at hi
  split at hi
  · rw [Nat.zero_testBit] at hi
    exact absurd hi (by simp)
  · split at hi
    · exact (select_hits_gumbel_subset _ _ _ _ _ _ i hi).1
    · split at hi
      · rw [Nat.testBit_land] at hi
        exact (Bool.and_eq_true_iff.mp hi).2
      · rw [Nat.testBit_lor] at hi
        rcases Bool.or_eq_true_iff.mp hi with h | h
        · rw [Nat.testBit_land] at h
          exact (Bool.and_eq_true_iff.mp h).2
        · have hrem := (select_hits_gumbel_subset _ _ _ _ _ _ i h).1
          rw [and_not_testBit] at hrem
          exact (Bool.and_eq_true_iff.mp hrem).1

theorem apply_voice_coupling_subset {a s : ℕ} (c : VoiceCoupling) (L : ℕ)
    (hc : c ≠ VoiceCoupling.SHADOW) (i : ℕ)
    (hi : (apply_voice_coupling a s c L).testBit i = true) : s.testBit i = true := by
  cases c with
  | INDEPENDENT => exact hi
  | INTERLOCK =>
      rw [show apply_voice_coupling a s VoiceCoupling.INTERLOCK L = and_not s a from rfl,
        and_not_testBit] at hi
      exact (Bool.and_eq_true_iff.mp hi).1
  | SHADOW => exact absurd rfl hc

/-- C2 (amended): for every valid input, the reported anchor and aux hit
counts are at most the popcounts of their eligibility masks from the bar
budget, and the shimmer hit count is likewise bounded whenever the voice
coupling is not SHADOW; with SHADOW the shimmer mask is replaced by the
rotated anchor mask and the shimmer bound can fail. -/
theorem C2_hit_counts_bounded (tbl : ArchTable) (energy build field_x field_y punch : ℚ)
    (genre : Genre) (drift balance : ℚ) (pattern_length : ℕ) (phrase_progress swing : ℚ)
    (voice_coupling : VoiceCoupling) (seed : ℕ) :
    (generate_pattern tbl energy build field_x field_y punch genre drift balance
        pattern_length phrase_progress swing voice_coupling seed).anchor_hits ≤
      popcount ((compute_bar_budget (clamp energy 0 1) (clamp balance 0 1)
        (compute_energy_zone (clamp energy 0 1)) (min (max 16 (min 64 pattern_length)) 32)
        (compute_build_modifiers (clamp build 0 1) phrase_progress).density_multiplier
        (clamp field_x 0 1)).anchor_eligibility) ∧
    (voice_coupling ≠ VoiceCoupling.SHADOW →
      (generate_pattern tbl energy build field_x field_y punch genre drift balance
          pattern_length phrase_progress swing voice_coupling seed).shimmer_hits ≤
        popcount ((compute_bar_budget (clamp energy 0 1) (clamp balance 0 1)
          (compute_energy_zone (clamp energy 0 1)) (min (max 16 (min 64 pattern_length)) 32)
          (compute_build_modifiers (clamp build 0 1) phrase_progress).density_multiplier
          (clamp field_x 0 1)).shimmer_eligibility)) ∧
    (generate_pattern tbl energy build field_x field_y punch genre drift balance
        pattern_length phrase_progress swing voice_coupling seed).aux_hits ≤
      popcount ((compute_bar_budget (clamp energy 0 1) (clamp balance 0 1)
        (compute_energy_zone (clamp energy 0 1)) (min (max 16 (min 64 pattern_length)) 32)
        (compute_build_modifiers (clamp build 0 1) phrase_progress).density_multiplier
        (clamp field_x 0 1)).aux_eligibility) := by
  obtain ⟨hL1, hL2⟩ := clamped_length_bounds pattern_length
  have h2pow : (2 : ℕ) ^ min (max 16 (min 64 pattern_length)) 32 ≤ 2 ^ 32 :=
    Nat.pow_le_pow_right (by norm_num) hL2
  unfold generate_pattern
  dsimp only []
  refine ⟨?_, ?_, ?_⟩
  · apply count_le_popcount_of_subset
    · apply lt_of_lt_of_le _ h2pow
      split
      · exact blend_euclidean_lt _ _ _ _ _ _ hL1 hL2
      · exact select_hits_gumbel_lt_clamped _ _ _ _ _ _
    · intro i hi
      revert hi
      split
      · exact blend_euclidean_subset _ _ _ _ _ _ i
      · exact fun hi => (select_hits_gumbel_subset _ _ _ _ _ _ i hi).1
  · intro hvc
    apply count_le_popcount_of_subset
    · apply lt_of_lt_of_le _ h2pow
      apply apply_voice_coupling_lt _ _ hL2
      · split
        · exact blend_euclidean_lt _ _ _ _ _ _ hL1 hL2
        · exact select_hits_gumbel_lt_clamped _ _ _ _ _ _
      · split
        · exact blend_euclidean_lt _ _ _ _ _ _ hL1 hL2
        · exact select_hits_gumbel_lt_clamped _ _ _ _ _ _
    · intro i hi
      have hpre := apply_voice_coupling_subset _ _ hvc i hi
      revert hpre
      split
      · exact blend_euclidean_subset _ _ _ _ _ _ i
      · exact fun hp => (select_hits_gumbel_subset _ _ _ _ _ _ i hp).1
  · apply count_le_popcount_of_subset
    · exact lt_of_lt_of_le (select_hits_gumbel_lt_clamped _ _ _ _ _ _) h2pow
    · exact fun i hi => (select_hits_gumbel_subset _ _ _ _ _ _ i hi).1

theorem C2_hit_counts_bounded_witness :
    VoiceCoupling.INDEPENDENT ≠ VoiceCoupling.SHADOW ∧
    ((generate_pattern uniform_table (1/2) (1/2) (1/2) (1/2) (1/2) Genre.TECHNO (1/2) (1/2)
        32 0 (1/2) VoiceCoupling.INDEPENDENT 7).anchor_hits ≤
      popcount ((compute_bar_budget (clamp (1/2) 0 1) (clamp (1/2) 0 1)
        (compute_energy_zone (clamp (1/2) 0 1)) (min (max 16 (min 64 32)) 32)
        (compute_build_modifiers (clamp (1/2) 0 1) 0).density_multiplier
        (clamp (1/2) 0 1)).anchor_eligibility) ∧
    (generate_pattern uniform_table (1/2) (1/2) (1/2) (1/2) (1/2) Genre.TECHNO (1/2) (1/2)
        32 0 (1/2) VoiceCoupling.INDEPENDENT 7).shimmer_hits ≤
      popcount ((compute_bar_budget (clamp (1/2) 0 1) (clamp (1/2) 0 1)
        (compute_energy_zone (clamp (1/2) 0 1)) (min (max 16 (min 64 32)) 32)
        (compute_build_modifiers (clamp (1/2) 0 1) 0).density_multiplier
        (clamp (1/2) 0 1)).shimmer_eligibility) ∧
    (generate_pattern uniform_table (1/2) (1/2) (1/2) (1/2) (1/2) Genre.TECHNO (1/2) (1/2)
        32 0 (1/2) VoiceCoupling.INDEPENDENT 7).aux_hits ≤
      popcount ((compute_bar_budget (clamp (1/2) 0 1) (clamp (1/2) 0 1)
        (compute_energy_zone (clamp (1/2) 0 1)) (min (max 16 (min 64 32)) 32)
        (compute_build_modifiers (clamp (1/2) 0 1) 0).density_multiplier
        (clamp (1/2) 0 1)).aux_eligibility)) :=
  ⟨by decide,
    (C2_hit_counts_bounded uniform_table (1/2) (1/2) (1/2) (1/2) (1/2) Genre.TECHNO (1/2)
      (1/2) 32 0 (1/2) VoiceCoupling.INDEPENDENT 7).1,
    (C2_hit_counts_bounded uniform_table (1/2) (1/2) (1/2) (1/2) (1/2) Genre.TECHNO (1/2)
      (1/2) 32 0 (1/2) VoiceCoupling.INDEPENDENT 7).2.1 (by decide),
    (C2_hit_counts_bounded uniform_table (1/2) (1/2) (1/2) (1/2) (1/2) Genre.TECHNO (1/2)
      (1/2) 32 0 (1/2) VoiceCoupling.INDEPENDENT 7).2.2⟩

/-! ## Concrete evaluation helpers: Python int(), softmax, uniform blending -/

theorem py_int_eq (q : ℚ) (n : ℕ) (h0 : (n : ℚ) ≤ q) (h1 : q < (n : ℚ) + 1) :
    py_int q = n := by
  have hq0 : (0 : ℚ) ≤ q := le_trans (by positivity) h0
  have hnum : 0 ≤ q.num := Rat.num_nonneg.mpr hq0
  have hfloor : ⌊q⌋ = (n : ℤ) := by
    rw [Int.floor_eq_iff]
    constructor
    · exact_mod_cast h0
    · exact_mod_cast h1
  rw [Rat.floor_def] at hfloor
  have hcast : q.num = (q.num.toNat : ℤ) := (Int.toNat_of_nonneg hnum).symm
  rw [hcast, ← Int.natCast_div] at hfloor
  unfold py_int
  exact_mod_cast hfloor

theorem list_sum_map_div (l : List ℝ) (c : ℝ) :
    (l.map (fun x => x / c)).sum = l.sum / c := by
  induction l with
  | nil => simp
  | cons x xs ih => simp [ih, add_div]

theorem softmax_weights_length (distances : List ℝ) (t : ℚ) :
    (softmax_weights distances t).length = distances.length := by
  unfold softmax_weights
  simp only []
  split <;> split <;> simp

theorem softmax_weights_sum (distances : List ℝ) (t : ℚ) (hd : distances ≠ []) :
    (softmax_weights distances t).sum = 1 := by
  unfold softmax_weights
  simp only []
  set T : ℚ := if t ≤ 0 then (0.01 : ℚ) else t with hT
  set scores := distances.map (fun d => -d / (T : ℝ)) with hscores
  set m := scores.foldl max (scores.headD 0) with hm
  set ew := scores.map (fun s => Real.exp (s - m)) with hew
  have hlen : ew ≠ [] := by
    rw [hew, hscores]
    simp [hd]
  have hpos : 0 < ew.sum := by
    apply List.sum_pos
    · intro x hx
      rw [hew] at hx
      obtain ⟨s, _, rfl⟩ := List.mem_map.mp hx
      exact Real.exp_pos _
    · exact hlen
  rw [if_neg (not_le.mpr hpos), list_sum_map_div, div_self (ne_of_gt hpos)]

theorem map_range_getD_lt {α : Type} (n : ℕ) (f : ℕ → α) (d : α) (step : ℕ)
    (h : step < n) : ((List.range n).map f).getD step d = f step := by
  rw [List.getD_eq_getElem?_getD, List.getElem?_map, List.getElem?_range h]
  rfl

theorem blend_arrays_replicate (ws : List ℝ) (hw : ws.length = 4) (hsum : ws.sum = 1)
    (b : ℕ) (hb : b < 32) :
    (blend_arrays [List.replicate 32 (1 : ℝ), List.replicate 32 1, List.replicate 32 1,
      List.replicate 32 1] ws).getD b 0 = 1 := by
  obtain ⟨w0, w1, w2, w3, rfl⟩ : ∃ a b c d, ws = [a, b, c, d] := by
    match ws, hw with
    | [a, b, c, d], _ => exact ⟨a, b, c, d, rfl⟩
  unfold blend_arrays
  simp only [List.length_replicate]
  rw [map_range_getD_lt 32 _ _ b hb]
  simp only [List.zip_cons_cons, List.zip_nil_left, List.zip_nil_right, List.foldl_cons,
    List.foldl_nil, getD_replicate_of_lt _ _ _ _ hb]
  simp only [List.sum_cons, List.sum_nil] at hsum
  linarith

theorem blend_archetypes_uniform (genre : Genre) (fx fy : ℚ) (b : ℕ) (hb : b < 32) :
    (blend_archetypes uniform_table genre fx fy 0.5).anchor_weights.getD b 0 = 1 ∧
    (blend_archetypes uniform_table genre fx fy 0.5).shimmer_weights.getD b 0 = 1 ∧
    (blend_archetypes uniform_table genre fx fy 0.5).aux_weights.getD b 0 = 1 := by
  unfold blend_archetypes
  dsimp only [get_archetype, uniform_table]
  simp only [List.map_cons, List.map_nil]
  refine ⟨blend_arrays_replicate _ ?_ ?_ b hb, blend_arrays_replicate _ ?_ ?_ b hb,
    blend_arrays_replicate _ ?_ ?_ b hb⟩ <;>
    first
      | (rw [softmax_weights_length]; rfl)
      | (apply softmax_weights_sum; simp)

/-! ## A concrete SHADOW bar where shimmer hits exceed shimmer eligibility -/

theorem cx_zone : compute_energy_zone (clamp (19/100 : ℚ) 0 1) = EnergyZone.MINIMAL := by
  rw [clamp_id (19/100 : ℚ) 0 1 (by norm_num) (by norm_num)]
  unfold compute_energy_zone
  dsimp only []
  rw [clamp_id (19/100 : ℚ) 0 1 (by norm_num) (by norm_num),
    if_pos (by norm_num : (19/100 : ℚ) < 0.20)]

theorem cx_mult :
    (compute_build_modifiers (clamp (1 : ℚ) 0 1) (9/10)).density_multiplier = 3/2 := by
  rw [clamp_id (1 : ℚ) 0 1 (by norm_num) (by norm_num)]
  unfold compute_build_modifiers
  dsimp only []
  rw [clamp_id (1 : ℚ) 0 1 (by norm_num) (by norm_num),
    clamp_id (9/10 : ℚ) 0 1 (by norm_num) (by norm_num),
    if_neg (by norm_num : ¬ (9/10 : ℚ) < 0.60),
    if_neg (by norm_num : ¬ (9/10 : ℚ) < 0.875)]
  dsimp only []
  norm_num

theorem cx_anchor_budget :
    compute_anchor_budget (clamp (19/100 : ℚ) 0 1) EnergyZone.MINIMAL 16 = 1 := by
  rw [clamp_id (19/100 : ℚ) 0 1 (by norm_num) (by norm_num)]
  unfold compute_anchor_budget
  dsimp only []
  rw [clamp_id (19/100 : ℚ) 0 1 (by norm_num) (by norm_num)]
  rw [show (min 16 32 : ℕ) = 16 from rfl]
  rw [clamp_id ((19/100 : ℚ) / 0.20) 0 1 (by norm_num) (by norm_num)]
  rw [py_int_eq _ 0 (by norm_num) (by norm_num)]
  decide

theorem cx_bar_anchor_hits :
    (compute_bar_budget (clamp (19/100 : ℚ) 0 1) (clamp (1 : ℚ) 0 1) EnergyZone.MINIMAL 16
      (3/2) (clamp (3/10 : ℚ) 0 1)).anchor_hits = 2 := by
  unfold compute_bar_budget
  dsimp only []
  rw [show (min 16 32 : ℕ) = 16 from rfl]
  rw [cx_anchor_budget, if_pos (by norm_num : (3/2 : ℚ) > 1)]
  rw [py_int_eq _ 2 (by norm_num) (by norm_num)]
  decide

theorem cx_anchor_elig :
    (compute_bar_budget (clamp (19/100 : ℚ) 0 1) (clamp (1 : ℚ) 0 1) EnergyZone.MINIMAL 16
      (3/2) (clamp (3/10 : ℚ) 0 1)).anchor_eligibility = 257 := by
  unfold compute_bar_budget
  dsimp only []
  rw [show (min 16 32 : ℕ) = 16 from rfl]
  unfold compute_anchor_eligibility
  dsimp only []
  rw [clamp_id (3/10 : ℚ) 0 1 (by norm_num) (by norm_num),
    clamp_id (3/10 : ℚ) 0 1 (by norm_num) (by norm_num)]
  rw [show (min 16 32 : ℕ) = 16 from rfl]
  rw [if_neg (by norm_num : ¬ (32 : ℕ) ≤ 16)]
  rw [if_neg (by norm_num : ¬ (3/10 : ℚ) > 0.6), if_neg (by norm_num : ¬ (3/10 : ℚ) > 0.3)]
  decide

theorem cx_shimmer_elig :
    (compute_bar_budget (clamp (19/100 : ℚ) 0 1) (clamp (1 : ℚ) 0 1) EnergyZone.MINIMAL 16
      (3/2) (clamp (3/10 : ℚ) 0 1)).shimmer_eligibility = 256 := by
  unfold compute_bar_budget
  dsimp only []
  rw [show (min 16 32 : ℕ) = 16 from rfl]
  unfold compute_shimmer_eligibility
  dsimp only []
  rw [clamp_id (3/10 : ℚ) 0 1 (by norm_num) (by norm_num),
    clamp_id (3/10 : ℚ) 0 1 (by norm_num) (by norm_num)]
  rw [show (min 16 32 : ℕ) = 16 from rfl]
  rw [if_neg (by norm_num : ¬ (32 : ℕ) ≤ 16)]
  rw [if_neg (by norm_num : ¬ (3/10 : ℚ) > 0.4)]
  decide

theorem cx_ratio :
    get_genre_euclidean_ratio Genre.IDM (clamp (3/10 : ℚ) 0 1) EnergyZone.MINIMAL = 0 := by
  unfold get_genre_euclidean_ratio
  rw [if_neg (by simp)]
  dsimp only []
  rw [zero_mul, clamp_id (0 : ℚ) 0 1 le_rfl (by norm_num)]

theorem cx_anchor_select :
    select_hits_gumbel (blend_archetypes uniform_table Genre.IDM (clamp (3/10 : ℚ) 0 1)
      (clamp (1/2 : ℚ) 0 1) 0.5).anchor_weights 257 2 0 16 4 = 257 := by
  apply select_hits_gumbel_exact
  · decide
  · decide
  · intro b hb hbe
    rw [(blend_archetypes_uniform Genre.IDM _ _ b (by omega)).1, epsilon_cast]
    norm_num
  · intro sel hsel b hb hbe hbs
    rw [show (min 16 32 : ℕ) = 16 from rfl] at hb hsel ⊢
    have hb08 : b = 0 ∨ b = 8 := by
      interval_cases b <;> revert hbe <;> decide
    unfold check_spacing_valid
    by_cases hsel0 : sel = 0
    · rw [if_pos (Or.inr hsel0)]
    · rw [if_neg (by push_neg; exact ⟨by norm_num, hsel0⟩)]
      rw [List.all_eq_true]
      intro step hstepmem
      have hstep : step < 16 := List.mem_range.mp hstepmem
      by_cases hbit : sel.testBit step = true
      · obtain ⟨hse, hsw⟩ := hsel step hbit
        have hstep08 : step = 0 ∨ step = 8 := by
          interval_cases step <;> revert hse <;> decide
        have hbne : b ≠ step := by
          intro he
          rw [he, hbit] at hbs
          exact absurd hbs (by simp)
        rw [if_neg (by simp [hbit])]
        rcases hb08 with rfl | rfl <;> rcases hstep08 with rfl | rfl
        · exact absurd rfl hbne
        · decide
        · decide
        · exact absurd rfl hbne
      · rw [if_pos (by simp [hbit])]
  · show popcount 257 ≤ min 2 16
    rw [← count_bits_eq_popcount 257 (by norm_num)]
    decide

/-- The spec says every voice's hit count is bounded by its eligibility
popcount; with SHADOW coupling the shimmer mask is the rotated anchor mask,
whose two hits exceed the single eligible shimmer step of this MINIMAL-zone
16-step bar. -/
theorem C2_counterexample :
    ¬ ((generate_pattern uniform_table (19/100) 1 (3/10) (1/2) (1/2) Genre.IDM (1/2) 1 16
          (9/10) (1/2) VoiceCoupling.SHADOW 0).shimmer_hits ≤
        popcount ((compute_bar_budget (clamp (19/100 : ℚ) 0 1) (clamp (1 : ℚ) 0 1)
            (compute_energy_zone (clamp (19/100 : ℚ) 0 1)) (min (max 16 (min 64 16)) 32)
            ((compute_build_modifiers (clamp (1 : ℚ) 0 1) (9/10)).density_multiplier)
            (clamp (3/10 : ℚ) 0 1)).shimmer_eligibility)) := by
  intro hcontra
  rw [cx_zone, cx_mult, show (min (max 16 (min 64 16)) 32 : ℕ) = 16 from rfl,
    cx_shimmer_elig, show popcount 256 = 1 from by decide] at hcontra
  have hsh : (generate_pattern uniform_table (19/100) 1 (3/10) (1/2) (1/2) Genre.IDM (1/2) 1
      16 (9/10) (1/2) VoiceCoupling.SHADOW 0).shimmer_hits = 2 := by
    unfold generate_pattern
    dsimp only []
    rw [cx_zone, cx_mult, show (min (max 16 (min 64 16)) 32 : ℕ) = 16 from rfl, cx_ratio]
    rw [if_neg (by norm_num : ¬ (0 : ℚ) > 0.01)]
    rw [cx_bar_anchor_hits, cx_anchor_elig,
      show get_min_spacing_for_zone EnergyZone.MINIMAL = 4 from rfl]
    rw [cx_anchor_select]
    dsimp only [apply_voice_coupling]
    decide
  rw [hsh] at hcontra
  exact absurd hcontra (by norm_num)

/-! ## Argmax characterization of the greedy selection -/

theorem fbs_fold_fst_mono (scores : List ℝ) (elig sel N sp : ℕ) (acc : ℝ × ℤ) (s : ℕ) :
    acc.1 ≤ (fbs_fold scores elig sel N sp acc s).1 := by
  unfold fbs_fold
  split
  · exact le_refl _
  · split
    · exact le_refl _
    · split
      · exact le_refl _
      · split
        · rename_i h4
          exact le_of_lt h4
        · exact le_refl _

theorem foldl_fbs_fst_mono (scores : List ℝ) (elig sel N sp : ℕ) (l : List ℕ)
    (acc : ℝ × ℤ) : acc.1 ≤ (l.foldl (fbs_fold scores elig sel N sp) acc).1 := by
  induction l generalizing acc with
  | nil => exact le_refl _
  | cons x xs ih =>
      rw [List.foldl_cons]
      exact le_trans (fbs_fold_fst_mono scores elig sel N sp acc x) (ih _)

theorem fbs_fold_ge (scores : List ℝ) (elig sel N sp : ℕ) (n c : ℕ) (hc : c < n)
    (hok : fbs_ok scores elig sel N sp c) :
    scores.getD c MIN_SCORE ≤
      ((List.range n).foldl (fbs_fold scores elig sel N sp) (MIN_SCORE, -1)).1 := by
  induction n with
  | zero => omega
  | succ n ih =>
      rw [List.range_succ, List.foldl_append, List.foldl_cons, List.foldl_nil]
      rcases Nat.lt_succ_iff_lt_or_eq.mp hc with h | h
      · exact le_trans (ih h) (fbs_fold_fst_mono scores elig sel N sp _ n)
      · subst h
        obtain ⟨h1, h2, h3, _⟩ := hok
        unfold fbs_fold
        rw [if_neg (by simp [h1]), if_neg (by simp [h2]), if_neg (by simp [h3])]
        split
        · exact le_refl _
        · rename_i h4
          exact le_of_not_lt h4

theorem find_best_step_max {scores : List ℝ} {elig sel N sp : ℕ}
    (h : 0 ≤ find_best_step scores elig sel N sp) (c : ℕ) (hc : c < min N 32)
    (hok : fbs_ok scores elig sel N sp c) :
    scores.getD c MIN_SCORE ≤
      scores.getD (find_best_step scores elig sel N sp).toNat MIN_SCORE := by
  rcases fbs_fold_spec scores elig sel N sp (min N 32) with ⟨heq, hnone⟩ | ⟨b, hb, heq, hbok⟩
  · exact absurd hok (hnone c hc)
  · have hge := fbs_fold_ge scores elig sel N sp (min N 32) c hc hok
    rw [heq] at hge
    unfold find_best_step
    rw [heq]
    have h2 : ((scores.getD b MIN_SCORE, (b : ℤ)).2).toNat = b := by simp
    rw [h2]
    exact hge

theorem find_best_step_eq {scores : List ℝ} {elig sel N sp : ℕ} (b : ℕ)
    (hb : b < min N 32) (hok : fbs_ok scores elig sel N sp b)
    (hmax : ∀ c, c < min N 32 → fbs_ok scores elig sel N sp c → c ≠ b →
      scores.getD c MIN_SCORE < scores.getD b MIN_SCORE) :
    find_best_step scores elig sel N sp = (b : ℤ) := by
  rcases fbs_fold_spec scores elig sel N sp (min N 32) with ⟨heq, hnone⟩ | ⟨c, hc, heq, hok'⟩
  · exact absurd hok (hnone b hb)
  · unfold find_best_step
    rw [heq]
    by_cases hcb : c = b
    · subst hcb
      rfl
    · exfalso
      have h1 := hmax c hc hok' hcb
      have h2 := fbs_fold_ge scores elig sel N sp (min N 32) b hb hok
      rw [heq] at h2
      have h3 : scores.getD b MIN_SCORE ≤ scores.getD c MIN_SCORE := h2
      linarith

theorem select_loop_testBit_mono (scores : List ℝ) (elig N sp : ℕ) :
    ∀ fuel (st : ℕ × ℕ) (i : ℕ), st.1.testBit i = true →
      (select_loop scores elig N sp fuel st).1.testBit i = true := by
  intro fuel
  induction fuel with
  | zero =>
      intro st i h
      exact h
  | succ fuel ih =>
      rintro ⟨sel, cnt⟩ i h
      have h' : sel.testBit i = true := h
      rw [select_loop_succ]
      by_cases hbest : find_best_step scores elig sel N sp < 0
      · rw [if_pos hbest]
        exact h'
      · rw [if_neg hbest]
        apply ih
        show (sel ||| 1 <<< (find_best_step scores elig sel N sp).toNat).testBit i = true
        rw [testBit_lor_one_shiftLeft, h']
        simp

theorem check_spacing_valid_le_one (sel b sp N : ℕ) (hsp : sp ≤ 1) (hb : b < N)
    (hsel : ∀ j, sel.testBit j = true → j < N) (hnb : sel.testBit b = false) :
    check_spacing_valid sel b sp N = true := by
  unfold check_spacing_valid
  by_cases h0 : sp = 0 ∨ sel = 0
  · rw [if_pos h0]
  · rw [if_neg h0]
    rw [List.all_eq_true]
    intro step hmem
    have hstep : step < N := List.mem_range.mp hmem
    by_cases hbit : sel.testBit step = true
    · rw [if_neg (by simp [hbit])]
      have hjN := hsel step hbit
      have hne : b ≠ step := by
        intro he
        rw [he, hbit] at hnb
        exact absurd hnb (by simp)
      dsimp only []
      rw [decide_eq_true_eq]
      omega
    · rw [if_pos (by simp [hbit])]

theorem select_loop_avoid (scores : List ℝ) (elig N sp : ℕ) (hsp : sp ≤ 1) (i : ℕ)
    (C : Finset ℕ)
    (hC : ∀ c ∈ C, c < min N 32 ∧ elig.testBit c = true ∧
      MIN_SCORE < scores.getD c MIN_SCORE ∧
      scores.getD i MIN_SCORE < scores.getD c MIN_SCORE) :
    ∀ fuel sel cnt,
      fuel ≤ (C.filter (fun c => sel.testBit c = false)).card →
      sel.testBit i = false →
      (∀ j, sel.testBit j = true → j < min N 32) →
      (select_loop scores elig N sp fuel (sel, cnt)).1.testBit i = false := by
  intro fuel
  induction fuel with
  | zero =>
      intro sel cnt _ hi _
      exact hi
  | succ fuel ih =>
      intro sel cnt hcard hi hsel
      rw [select_loop_succ]
      by_cases hbest : find_best_step scores elig sel N sp < 0
      · rw [if_pos hbest]
        exact hi
      · rw [if_neg hbest]
        push_neg at hbest
        obtain ⟨hblt, hbe, hbs, hbsp, hbmin⟩ := find_best_step_nonneg hbest
        have hCne : ∃ c ∈ C, sel.testBit c = false := by
          have hpos : 0 < (C.filter (fun c => sel.testBit c = false)).card := by omega
          rw [Finset.card_pos] at hpos
          obtain ⟨c, hc⟩ := hpos
          rw [Finset.mem_filter] at hc
          exact ⟨c, hc.1, hc.2⟩
        obtain ⟨c, hcC, hcsel⟩ := hCne
        obtain ⟨hc32, hce, hcmin, hcgt⟩ := hC c hcC
        have hcok : fbs_ok scores elig sel N sp c :=
          ⟨hce, hcsel, check_spacing_valid_le_one sel c sp N hsp (by omega)
            (fun j hj => by have := hsel j hj; omega) hcsel, hcmin⟩
        have hble := find_best_step_max hbest c hc32 hcok
        have hbne : (find_best_step scores elig sel N sp).toNat ≠ i := by
          intro he
          rw [he] at hble
          linarith
        apply ih
        · have hsubset : (C.filter (fun c => sel.testBit c = false)).erase
              (find_best_step scores elig sel N sp).toNat ⊆
              C.filter (fun c =>
                (sel ||| 1 <<< (find_best_step scores elig sel N sp).toNat).testBit c
                  = false) := by
            intro x hx
            rw [Finset.mem_erase, Finset.mem_filter] at hx
            rw [Finset.mem_filter]
            refine ⟨hx.2.1, ?_⟩
            rw [testBit_lor_one_shiftLeft, hx.2.2]
            simp
            intro he
            exact hx.1 he.symm
          have hcard2 := Finset.card_le_card hsubset
          have hcard3 : (C.filter (fun c => sel.testBit c = false)).card - 1 ≤
              ((C.filter (fun c => sel.testBit c = false)).erase
                (find_best_step scores elig sel N sp).toNat).card := by
            by_cases hmem : (find_best_step scores elig sel N sp).toNat ∈
                C.filter (fun c => sel.testBit c = false)
            · rw [Finset.card_erase_of_mem hmem]
            · rw [Finset.erase_eq_of_not_mem hmem]
              omega
          omega
        · rw [testBit_lor_one_shiftLeft, hi]
          simp
          intro he
          exact hbne he
        · intro j hj
          rw [testBit_lor_one_shiftLeft] at hj
          rcases Bool.or_eq_true_iff.mp hj with hj | hj
          · exact hsel j hj
          · have : (find_best_step scores elig sel N sp).toNat = j := by simpa using hj
            subst this
            exact hblt

/-! ## Strict monotonicity of the Gumbel transform on hash uniforms -/

theorem min_score_lt_gumbel (u : ℚ) : MIN_SCORE < uniform_to_gumbel u := by
  have h := uniform_to_gumbel_ge u
  unfold MIN_SCORE
  linarith

theorem uniform_to_gumbel_lt {u v : ℚ} (hu1 : EPSILON ≤ u) (hu2 : u ≤ 1 - EPSILON)
    (hv1 : EPSILON ≤ v) (hv2 : v ≤ 1 - EPSILON) (huv : u < v) :
    uniform_to_gumbel u < uniform_to_gumbel v := by
  unfold uniform_to_gumbel
  dsimp only []
  rw [min_eq_right hu2, max_eq_right hu1, min_eq_right hv2, max_eq_right hv1]
  have hu1R : (1 / 1000000 : ℝ) ≤ (u : ℝ) := by
    rw [← epsilon_cast]
    exact_mod_cast hu1
  have hv1R : (1 / 1000000 : ℝ) ≤ (v : ℝ) := by
    rw [← epsilon_cast]
    exact_mod_cast hv1
  have hv2R : (v : ℝ) ≤ 1 - 1 / 1000000 := by
    have hcast := (Rat.cast_le (K := ℝ)).mpr hv2
    rw [Rat.cast_sub, epsilon_cast] at hcast
    simpa using hcast
  have hupos : (0 : ℝ) < (u : ℝ) := by linarith
  have hvpos : (0 : ℝ) < (v : ℝ) := by linarith
  have hvlt1 : (v : ℝ) < 1 := by linarith
  have huv' : (u : ℝ) < (v : ℝ) := by exact_mod_cast huv
  have hlog : Real.log (u : ℝ) < Real.log (v : ℝ) := Real.log_lt_log hupos huv'
  have hlogv : Real.log (v : ℝ) < 0 := Real.log_neg hvpos hvlt1
  have h1 : (0 : ℝ) < -Real.log (v : ℝ) := by linarith
  have h2 : -Real.log (v : ℝ) < -Real.log (u : ℝ) := by linarith
  have h3 : Real.log (-Real.log (v : ℝ)) < Real.log (-Real.log (u : ℝ)) :=
    Real.log_lt_log h1 h2
  show Neg.neg (Real.log (-Real.log (u : ℝ))) < Neg.neg (Real.log (-Real.log (v : ℝ)))
  linarith

theorem hash_to_float_eq (seed step : ℕ) (h1 : 16 < hash_step seed step >>> 8)
    (h2 : hash_step seed step >>> 8 < 16777200) :
    hash_to_float seed step = ((hash_step seed step >>> 8 : ℕ) : ℚ) / 16777216 ∧
    EPSILON ≤ ((hash_step seed step >>> 8 : ℕ) : ℚ) / 16777216 ∧
    ((hash_step seed step >>> 8 : ℕ) : ℚ) / 16777216 ≤ 1 - EPSILON := by
  have h17 : (17 : ℚ) ≤ ((hash_step seed step >>> 8 : ℕ) : ℚ) := by
    exact_mod_cast h1
  have hub : ((hash_step seed step >>> 8 : ℕ) : ℚ) ≤ 16777199 := by
    exact_mod_cast (show hash_step seed step >>> 8 ≤ 16777199 by omega)
  have hlo : EPSILON ≤ ((hash_step seed step >>> 8 : ℕ) : ℚ) / 16777216 := by
    rw [EPSILON, div_le_div_iff (by norm_num) (by norm_num)]
    nlinarith
  have hhi : ((hash_step seed step >>> 8 : ℕ) : ℚ) / 16777216 ≤ 1 - EPSILON := by
    rw [EPSILON, show (1 : ℚ) - 1 / 1000000 = 999999 / 1000000 by norm_num,
      div_le_div_iff (by norm_num) (by norm_num)]
    nlinarith
  refine ⟨?_, hlo, hhi⟩
  unfold hash_to_float
  dsimp only []
  rw [min_eq_right, max_eq_right hlo]
  exact hhi

theorem gumbel_hash_lt (s1 a s2 b : ℕ)
    (h : 16 < hash_step s1 a >>> 8 ∧ hash_step s1 a >>> 8 < 16777200 ∧
      16 < hash_step s2 b >>> 8 ∧ hash_step s2 b >>> 8 < 16777200 ∧
      hash_step s1 a >>> 8 < hash_step s2 b >>> 8) :
    uniform_to_gumbel (hash_to_float s1 a) < uniform_to_gumbel (hash_to_float s2 b) := by
  obtain ⟨h1, h2, h3, h4, h5⟩ := h
  obtain ⟨he1, hlo1, hhi1⟩ := hash_to_float_eq s1 a h1 h2
  obtain ⟨he2, hlo2, hhi2⟩ := hash_to_float_eq s2 b h3 h4
  rw [he1, he2]
  apply uniform_to_gumbel_lt hlo1 hhi1 hlo2 hhi2
  apply div_lt_div_of_pos_right ?_ (by norm_num)
  exact_mod_cast h5

theorem score_eq_gumbel (weights : List ℝ) (seed N b : ℕ) (hb : b < N)
    (hw : weights.getD b 0 = 1) :
    (compute_gumbel_scores weights seed N).getD b MIN_SCORE =
      uniform_to_gumbel (hash_to_float seed b) := by
  rw [compute_gumbel_scores_getD weights seed N b hb, hw,
    if_neg (by rw [epsilon_cast]; norm_num), Real.log_one, zero_add]

theorem two_le_dedup_length {α : Type} [DecidableEq α] {l : List α} {a b : α}
    (ha : a ∈ l) (hb : b ∈ l) (hab : a ≠ b) : 2 ≤ l.dedup.length := by
  have ha' : a ∈ l.dedup := List.mem_dedup.mpr ha
  have hb' : b ∈ l.dedup := List.mem_dedup.mpr hb
  have hsub : ({a, b} : Finset α) ⊆ l.dedup.toFinset := by
    intro x hx
    rw [Finset.mem_insert, Finset.mem_singleton] at hx
    rw [List.mem_toFinset]
    rcases hx with rfl | rfl
    · exact ha'
    · exact hb'
  have hcard2 : ({a, b} : Finset α).card = 2 := Finset.card_pair hab
  have hle := Finset.card_le_card hsub
  rw [hcard2] at hle
  calc 2 ≤ l.dedup.toFinset.card := hle
    _ = l.dedup.length := List.toFinset_card_of_nodup (List.nodup_dedup l)

/-! ## Default-parameter evaluations for the phrase scenario -/

theorem default_zone : compute_energy_zone (clamp (1/2 : ℚ) 0 1) = EnergyZone.BUILD := by
  rw [clamp_id (1/2 : ℚ) 0 1 (by norm_num) (by norm_num)]
  unfold compute_energy_zone
  dsimp only []
  rw [clamp_id (1/2 : ℚ) 0 1 (by norm_num) (by norm_num),
    if_neg (by norm_num : ¬ (1/2 : ℚ) < 0.20),
    if_neg (by norm_num : ¬ (1/2 : ℚ) < 0.50),
    if_pos (by norm_num : (1/2 : ℚ) < 0.75)]

theorem default_mult_groove (pp : ℚ) (h0 : 0 ≤ pp) (h1 : pp < 0.60) :
    (compute_build_modifiers (clamp (1/2 : ℚ) 0 1) pp).density_multiplier = 1 := by
  rw [clamp_id (1/2 : ℚ) 0 1 (by norm_num) (by norm_num)]
  unfold compute_build_modifiers
  dsimp only []
  rw [clamp_id pp 0 1 h0 (by nlinarith [show (0.60 : ℚ) ≤ 1 by norm_num]),
    if_pos h1]

theorem default_mult_build (pp : ℚ) (h0 : 0.60 ≤ pp) (h1 : pp < 0.875) (h2 : pp ≤ 1) :
    (compute_build_modifiers (clamp (1/2 : ℚ) 0 1) pp).density_multiplier =
      1 + (1/2 : ℚ) * 0.35 * ((pp - 0.60) / 0.275) := by
  rw [clamp_id (1/2 : ℚ) 0 1 (by norm_num) (by norm_num)]
  unfold compute_build_modifiers
  dsimp only []
  rw [clamp_id pp 0 1 (by nlinarith [show (0 : ℚ) ≤ 0.60 by norm_num]) h2,
    if_neg (by push_neg; exact h0), if_pos h1,
    clamp_id (1/2 : ℚ) 0 1 (by norm_num) (by norm_num)]

theorem default_anchor_budget :
    compute_anchor_budget (clamp (1/2 : ℚ) 0 1) EnergyZone.BUILD 32 = 4 := by
  rw [clamp_id (1/2 : ℚ) 0 1 (by norm_num) (by norm_num)]
  unfold compute_anchor_budget
  dsimp only []
  rw [clamp_id (1/2 : ℚ) 0 1 (by norm_num) (by norm_num)]
  rw [show ((1/2 : ℚ) - 0.50) / 0.25 = 0 by norm_num]
  rw [clamp_id (0 : ℚ) 0 1 le_rfl (by norm_num)]
  rw [py_int_eq _ 0 (by norm_num) (by norm_num)]
  decide

theorem default_bar_anchor_hits (M : ℚ) (hM1 : 1 ≤ M) (hM2 : M ≤ 241/220) :
    (compute_bar_budget (clamp (1/2 : ℚ) 0 1) (clamp (1/2 : ℚ) 0 1) EnergyZone.BUILD 32 M
      (clamp (1/2 : ℚ) 0 1)).anchor_hits = 4 := by
  unfold compute_bar_budget
  dsimp only []
  rw [show (min 32 32 : ℕ) = 32 from rfl]
  rw [default_anchor_budget]
  rcases eq_or_lt_of_le hM1 with hM | hM
  · rw [if_neg (show ¬ M > 1 by rw [← hM]; norm_num)]
    decide
  · rw [if_pos hM]
    rw [py_int_eq _ 4 (by push_cast; linarith) (by push_cast; linarith)]
    decide

theorem default_bar_anchor_elig (M : ℚ) :
    (compute_bar_budget (clamp (1/2 : ℚ) 0 1) (clamp (1/2 : ℚ) 0 1) EnergyZone.BUILD 32 M
      (clamp (1/2 : ℚ) 0 1)).anchor_eligibility = 0xFFFFFFFF := by
  unfold compute_bar_budget
  dsimp only []
  rw [show (min 32 32 : ℕ) = 32 from rfl]
  unfold compute_anchor_eligibility
  dsimp only []
  rw [clamp_id (1/2 : ℚ) 0 1 (by norm_num) (by norm_num),
    clamp_id (1/2 : ℚ) 0 1 (by norm_num) (by norm_num)]
  rw [show (min 32 32 : ℕ) = 32 from rfl]
  rw [if_pos (by norm_num : (32 : ℕ) ≤ 32)]
  rw [if_neg (by norm_num : ¬ (1/2 : ℚ) > 0.60), if_neg (by norm_num : ¬ (1/2 : ℚ) > 0.6),
    if_pos (by norm_num : (1/2 : ℚ) > 0.3)]
  decide

theorem default_ratio :
    get_genre_euclidean_ratio Genre.TECHNO (clamp (1/2 : ℚ) 0 1) EnergyZone.BUILD = 0 := by
  unfold get_genre_euclidean_ratio
  rw [if_pos ⟨by simp, by simp⟩]

/-- With all-one weights, the bar whose seed is the phrase seed picks step 14
first: its hash uniform is the strict maximum over the 32-step window. -/
theorem c4_bar0_bit (W : List ℝ) (hw : ∀ b, b < 32 → W.getD b 0 = 1) :
    (select_hits_gumbel W 0xFFFFFFFF 4 0x12345678 32 1).testBit 14 = true := by
  unfold select_hits_gumbel
  rw [if_neg (show ¬ ((4 : ℕ) = 0 ∨ (0xFFFFFFFF : ℕ) = 0) by decide)]
  dsimp only []
  rw [show (min 32 32 : ℕ) = 32 from rfl, show (min 4 16 : ℕ) = 4 from rfl]
  set scores := compute_gumbel_scores W 0x12345678 32 with hscores
  have hsc : ∀ c, c < 32 → scores.getD c MIN_SCORE =
      uniform_to_gumbel (hash_to_float 0x12345678 c) := by
    intro c hc
    rw [hscores]
    exact score_eq_gumbel W 0x12345678 32 c hc (hw c hc)
  have hok14 : fbs_ok scores 0xFFFFFFFF 0 32 1 14 := by
    refine ⟨by decide, by decide, by decide, ?_⟩
    rw [hsc 14 (by norm_num)]
    exact min_score_lt_gumbel _
  have hmax14 : ∀ c, c < min 32 32 → fbs_ok scores 0xFFFFFFFF 0 32 1 c → c ≠ 14 →
      scores.getD c MIN_SCORE < scores.getD 14 MIN_SCORE := by
    intro c hc _ hne
    rw [show (min 32 32 : ℕ) = 32 from rfl] at hc
    rw [hsc c hc, hsc 14 (by norm_num)]
    interval_cases c
    all_goals first
      | exact absurd rfl hne
      | exact gumbel_hash_lt _ _ _ _ (by decide)
  have hfb : find_best_step scores 0xFFFFFFFF 0 32 1 = (14 : ℤ) :=
    find_best_step_eq 14 (by decide) hok14 hmax14
  set s1 := select_loop scores 0xFFFFFFFF 32 1 4 (0, 0) with hs1
  have hbit1 : s1.1.testBit 14 = true := by
    rw [hs1, show (4 : ℕ) = 3 + 1 from rfl, select_loop_succ, hfb]
    rw [if_neg (by norm_num : ¬ (14 : ℤ) < 0)]
    apply select_loop_testBit_mono
    show ((0 : ℕ) ||| 1 <<< ((14 : ℤ)).toNat).testBit 14 = true
    decide
  set s2 := if s1.2 < 4 ∧ 0 < 1 then
      select_loop scores 0xFFFFFFFF 32 (1 / 2) (4 - s1.2) s1 else s1 with hs2
  have hbit2 : s2.1.testBit 14 = true := by
    rw [hs2]
    split
    · exact select_loop_testBit_mono _ _ _ _ _ _ 14 hbit1
    · exact hbit1
  split
  · exact select_loop_testBit_mono _ _ _ _ _ _ 14 hbit2
  · exact hbit2

/-- With all-one weights, the bar whose seed is the phrase seed XOR 0x1234567
never selects step 14: four other steps carry strictly larger hash uniforms
and the target is exactly four. -/
theorem c4_bar1_bit (W : List ℝ) (hw : ∀ b, b < 32 → W.getD b 0 = 1) :
    (select_hits_gumbel W 0xFFFFFFFF 4 (0x12345678 ^^^ 0x1234567) 32 1).testBit 14
      = false := by
  unfold select_hits_gumbel
  rw [if_neg (show ¬ ((4 : ℕ) = 0 ∨ (0xFFFFFFFF : ℕ) = 0) by decide)]
  dsimp only []
  rw [show (min 32 32 : ℕ) = 32 from rfl, show (min 4 16 : ℕ) = 4 from rfl]
  set scores := compute_gumbel_scores W (0x12345678 ^^^ 0x1234567) 32 with hscores
  have hsc : ∀ c, c < 32 → scores.getD c MIN_SCORE =
      uniform_to_gumbel (hash_to_float (0x12345678 ^^^ 0x1234567) c) := by
    intro c hc
    rw [hscores]
    exact score_eq_gumbel W (0x12345678 ^^^ 0x1234567) 32 c hc (hw c hc)
  have Hsp : ∀ sel, (∀ i, sel.testBit i = true →
      (0xFFFFFFFF : ℕ).testBit i = true ∧ i < min 32 32) →
      ∀ b, b < min 32 32 → (0xFFFFFFFF : ℕ).testBit b = true → sel.testBit b = false →
        check_spacing_valid sel b 1 32 = true := by
    intro sel hsel b hb _ hbs
    apply check_spacing_valid_le_one sel b 1 32 le_rfl (by omega) ?_ hbs
    intro j hj
    have hj2 := (hsel j hj).2
    omega
  have H2 : ∀ b, b < min 32 32 → (0xFFFFFFFF : ℕ).testBit b = true →
      MIN_SCORE < scores.getD b MIN_SCORE := by
    intro b hb _
    rw [show (min 32 32 : ℕ) = 32 from rfl] at hb
    rw [hsc b hb]
    exact min_score_lt_gumbel _
  have Hsel0 : ∀ i, (0 : ℕ).testBit i = true →
      (0xFFFFFFFF : ℕ).testBit i = true ∧ i < min 32 32 := by
    intro i hi
    rw [Nat.zero_testBit] at hi
    exact absurd hi (by simp)
  obtain ⟨h1cnt, _, _, _⟩ := select_loop_main scores 0xFFFFFFFF 32 1 Hsp H2 4 0 0 Hsel0
  have havail : avail 0xFFFFFFFF 32 0 = 32 := by
    rw [avail_sel_zero, show (min 32 32 : ℕ) = 32 from rfl]
    show popcount 0xFFFFFFFF = 32
    rw [← count_bits_eq_popcount 0xFFFFFFFF (by norm_num)]
    decide
  set s1 := select_loop scores 0xFFFFFFFF 32 1 4 (0, 0) with hs1
  have hcnt : s1.2 = 4 := by
    rw [h1cnt, havail]
    decide
  have hbit1 : s1.1.testBit 14 = false := by
    rw [hs1]
    refine select_loop_avoid scores 0xFFFFFFFF 32 1 le_rfl 14
      ({8, 17, 21, 24} : Finset ℕ) ?_ 4 0 0 ?_ ?_ ?_
    · intro c hc
      fin_cases hc <;>
        exact ⟨by decide, by decide,
          by rw [hsc _ (by decide)]; exact min_score_lt_gumbel _,
          by rw [hsc _ (by decide), hsc _ (by decide)];
             exact gumbel_hash_lt _ _ _ _ (by decide)⟩
    · rw [Finset.filter_true_of_mem (fun c _ => Nat.zero_testBit c)]
      decide
    · decide
    · intro j hj
      rw [Nat.zero_testBit] at hj
      exact absurd hj (by simp)
  have hc2 : ¬ (s1.2 < 4 ∧ 0 < 1) := by
    intro hcon
    rw [hcnt] at hcon
    exact absurd hcon.1 (by norm_num)
  rw [if_neg hc2]
  rw [if_neg (show ¬ s1.2 < 4 by rw [hcnt]; norm_num)]
  exact hbit1

theorem two_le_dedup_length_cons {α : Type} [DecidableEq α] (a b : α) (t : List α)
    (hab : a ≠ b) : 2 ≤ (a :: b :: t).dedup.length :=
  two_le_dedup_length (List.mem_cons_self _ _)
    (List.mem_cons_of_mem _ (List.mem_cons_self _ _)) hab

/-- C4: in a four-bar phrase at the default control settings, drift 0.0
freezes the per-bar seed and every bar reports the same anchor mask, while
drift 0.5 varies the seed per bar and at least two distinct anchor masks
appear among the four bars. -/
theorem C4_drift_phrase_behavior :
    ((generate_phrase uniform_table 4 (1/2) (1/2) (1/2) (1/2) (1/2) Genre.TECHNO 0
        (1/2) 32 (1/2) VoiceCoupling.INDEPENDENT 0x12345678).map
          (fun p => p.anchor_mask)).dedup.length = 1 ∧
    2 ≤ ((generate_phrase uniform_table 4 (1/2) (1/2) (1/2) (1/2) (1/2) Genre.TECHNO (1/2)
        (1/2) 32 (1/2) VoiceCoupling.INDEPENDENT 0x12345678).map
          (fun p => p.anchor_mask)).dedup.length := by
  constructor
  · unfold generate_phrase
    rw [show List.range 4 = [0, 1, 2, 3] from rfl]
    simp only [List.map_cons, List.map_nil]
    unfold generate_pattern
    dsimp only []
    rw [if_pos (by norm_num : (0 : ℚ) < 0.01), if_pos (by norm_num : (0 : ℚ) < 0.01),
      if_pos (by norm_num : (0 : ℚ) < 0.01), if_pos (by norm_num : (0 : ℚ) < 0.01)]
    rw [default_zone]
    rw [show (min (max 16 (min 64 32)) 32 : ℕ) = 32 from rfl]
    rw [default_mult_groove _ (by positivity) (by norm_num),
      default_mult_groove _ (by positivity) (by norm_num),
      default_mult_groove _ (by positivity) (by norm_num),
      default_mult_build _ (by norm_num) (by norm_num) (by norm_num)]
    rw [default_bar_anchor_hits 1 le_rfl (by norm_num),
      default_bar_anchor_hits _ (by norm_num) (by norm_num)]
    rw [default_bar_anchor_elig 1, default_bar_anchor_elig _]
    rw [List.dedup_cons_of_mem (by simp), List.dedup_cons_of_mem (by simp),
      List.dedup_cons_of_mem (by simp)]
    simp
  · unfold generate_phrase
    rw [show List.range 4 = [0, 1, 2, 3] from rfl]
    simp only [List.map_cons, List.map_nil]
    unfold generate_pattern
    dsimp only []
    rw [if_neg (by norm_num : ¬ (1/2 : ℚ) < 0.01), if_neg (by norm_num : ¬ (1/2 : ℚ) < 0.01),
      if_neg (by norm_num : ¬ (1/2 : ℚ) < 0.01), if_neg (by norm_num : ¬ (1/2 : ℚ) < 0.01)]
    rw [show ((0 : ℕ) * 0x1234567 : ℕ) = 0 from rfl, Nat.xor_zero,
      show ((1 : ℕ) * 0x1234567 : ℕ) = 0x1234567 from rfl]
    rw [default_zone]
    rw [show (min (max 16 (min 64 32)) 32 : ℕ) = 32 from rfl]
    rw [default_mult_groove _ (by positivity) (by norm_num),
      default_mult_groove _ (by positivity) (by norm_num)]
    rw [default_bar_anchor_hits 1 le_rfl (by norm_num), default_bar_anchor_elig 1]
    rw [default_ratio]
    rw [if_neg (by norm_num : ¬ (0 : ℚ) > 0.01), if_neg (by norm_num : ¬ (0 : ℚ) > 0.01)]
    rw [show get_min_spacing_for_zone EnergyZone.BUILD = 1 from rfl]
    apply two_le_dedup_length_cons
    intro heq
    have h0 := c4_bar0_bit (blend_archetypes uniform_table Genre.TECHNO (clamp (1/2) 0 1)
      (clamp (1/2) 0 1) 0.5).anchor_weights
      (fun b hb => (blend_archetypes_uniform Genre.TECHNO (clamp (1/2) 0 1)
        (clamp (1/2) 0 1) b hb).1)
    have h1 := c4_bar1_bit (blend_archetypes uniform_table Genre.TECHNO (clamp (1/2) 0 1)
      (clamp (1/2) 0 1) 0.5).anchor_weights
      (fun b hb => (blend_archetypes_uniform Genre.TECHNO (clamp (1/2) 0 1)
        (clamp (1/2) 0 1) b hb).1)
    rw [heq] at h0
    rw [h0] at h1
    exact absurd h1 (by simp)
